import Mathlib

/-!
Verification of the alignment-and-resegmentation engine of
`ocrd_cor_asv_ann/wrapper/transcode.py`.

Shallow embedding conventions:
* Python strings are `List Char`; Python floats are `ℚ` (exact arithmetic).
* `TextEquivType.conf` is `Option ℚ`; Python's falsy coercion `conf or "1.0"`
  treats both `none` (unset) and `some 0` as `1.0`.  A `none` confidence also
  stands for numpy's NaN in recomputed confidences (`npMeanPy` below).
* Fallible code (Python `assert`, attribute errors on `None`, unbounded
  loops modelled with fuel) returns `Option`.
* Dict iteration order is insertion order, modelled by association lists.
-/

namespace Transcode

/-- Python `str.isspace` characters relevant to `str.split()` with no
separator (space, tab, newline, carriage return, vertical tab, form feed). -/
def pyIsSpace (c : Char) : Bool :=
  c = ' ' || c = '\t' || c = '\n' || c = '\r' || c = '\x0b' || c = '\x0c'

/-- Truthiness of Python `s.split()`: `true` iff the string holds at least one
non-whitespace character. -/
def hasNonWS (l : List Char) : Bool :=
  l.any (fun c => !pyIsSpace c)

/-- Membership test for the two-character tuple `(" ", "\n")` used by
`startswith`/`endswith` in `_update_sequence`. -/
def isSpaceOrNL (c : Char) : Bool :=
  c = ' ' || c = '\n'

/-- Python `output.split(" ")[-1]`: the suffix of the string after its last
literal space character (the whole string when it has no space). -/
def lastSpaceToken (l : List Char) : List Char :=
  (l.reverse.takeWhile (fun c => c ≠ ' ')).reverse

/-- Python slice `l[a:b]` (with the clamping semantics of nonnegative
slice bounds). -/
def pySlice {α : Type} (l : List α) (a b : Nat) : List α :=
  (l.drop a).take (b - a)

/-- A PAGE-XML `TextEquivType`: string content, optional confidence and the
`index` attribute (`-1` marks the synthetic whitespace elements inserted
between siblings, which the XML schema forbids for persisted elements). -/
structure TextEquivType where
  Unicode : List Char
  conf : Option ℚ
  index : Int
  deriving DecidableEq, Repr

/-- Python `float(conf or "1.0")`: `none` (unset) and `some 0` (falsy) both
yield `1`. -/
def effConf (c : Option ℚ) : ℚ :=
  match c with
  | none => 1
  | some q => if q = 0 then 1 else q

/-- Embeds `np.mean` over a list of optional confidences as used by
`page_update_higher_textequiv_levels`: `none` abstracts both numpy's NaN on
an empty list and the error raised on an unset (`None`) member. -/
def npMeanPy (l : List (Option ℚ)) : Option ℚ :=
  if l = [] then none
  else if l.any (fun c => c.isNone) then none
  else some ((l.map (fun c => c.getD 0)).sum / l.length)

/-- Embeds `np.mean(prob or [1.0])` over a plain probability slice in
`_update_sequence`: the empty slice defaults to `[1.0]`. -/
def npMeanDefault (l : List ℚ) : ℚ :=
  if l = [] then 1 else l.sum / l.length

/-- The reserved gap character.  Modelled from the spec: the constant `GAP`
is imported from `..lib.seq2seq`, which is not part of the sources under
review; the spec only requires it to be a single reserved placeholder
character that must stay outside the model's vocabulary.  Its concrete
value is irrelevant to every claim. -/
def GAP : Char := '\x07'

/-!
## LineExtractor: `_line_sequences2string_sequences`

Only the `TextEquiv` component of each `(TextEquiv, Word, TextLine)` tuple
matters to string construction; the parallel `word_starts`/`textline_starts`
dictionaries replicate the same keys and are omitted from the embedding.
-/

/-- Result of flattening one line: the concatenated string, the per-character
confidence list, and the position map from string offsets to (possibly
gap-substituted) spans. -/
structure LineStrings where
  line : List Char
  conf : List ℚ
  starts : List (Nat × TextEquivType)
  deriving DecidableEq, Repr

/-- One step of the extraction fold (the body of the
`for textequiv, word, textline in line_sequence` loop).  Returns `none` when
the `assert GAP not in mapping` configuration check fires. -/
def extractStep (mapping : List Char) (st : Nat × LineStrings)
    (te : TextEquivType) : Option (Nat × LineStrings) :=
  let i := st.1
  let acc := st.2
  if te.Unicode = [] then
    if GAP ∈ mapping then none
    else
      let te' := { te with Unicode := [GAP] }
      some (i + 1,
        { line := acc.line ++ te'.Unicode
          conf := acc.conf ++ List.replicate 1 (effConf te.conf)
          starts := acc.starts ++ [(i, te')] })
  else
    let j := te.Unicode.length
    some (i + j,
      { line := acc.line ++ te.Unicode
        conf := acc.conf ++ List.replicate j (effConf te.conf)
        starts := acc.starts ++ [(i, te)] })

/-- Fold `extractStep` over the spans of one line. -/
def extractFold (mapping : List Char) :
    Nat × LineStrings → List TextEquivType → Option (Nat × LineStrings)
  | st, [] => some st
  | st, te :: rest => do
    let st' ← extractStep mapping st te
    extractFold mapping st' rest

/-- Embeds `_line_sequences2string_sequences` restricted to a single line sequence:
concatenate the spans to a line string, produce the per-character confidence
list and the position map. -/
def line_sequence2strings (mapping : List Char) (seq : List TextEquivType) :
    Option LineStrings := do
  let st ← extractFold mapping (0, ⟨[], [], []⟩) seq
  return st.2

/-- Embeds `_line_sequences2string_sequences` over all lines. -/
def line_sequences2string_sequences (mapping : List Char)
    (seqs : List (List TextEquivType)) : Option (List LineStrings) :=
  seqs.mapM (line_sequence2strings mapping)

/-- Sum of the content lengths of the spans listed in a position map. -/
def sumSpanLengths (starts : List (Nat × TextEquivType)) : Nat :=
  (starts.map (fun p => p.2.Unicode.length)).sum

/-- The gap substitution performed on an empty span by the extractor. -/
def gapSub (te : TextEquivType) : TextEquivType :=
  if te.Unicode = [] then { te with Unicode := [GAP] } else te

/-- The position map produced by the extractor, starting at offset `i`. -/
def offsetsFrom (i : Nat) : List TextEquivType → List (Nat × TextEquivType)
  | [] => []
  | te :: rest => (i, gapSub te) :: offsetsFrom (i + (gapSub te).Unicode.length) rest

/-- Concatenated contents after gap substitution. -/
def extractLine (seq : List TextEquivType) : List Char :=
  (seq.map (fun te => (gapSub te).Unicode)).flatten

/-- Per-character confidences after gap substitution. -/
def extractConf (seq : List TextEquivType) : List ℚ :=
  (seq.map (fun te => List.replicate (gapSub te).Unicode.length (effConf te.conf))).flatten

/-- Python `output.startswith((" ", "\n"))` (false on the empty string). -/
def pyStartswithWS (l : List Char) : Bool :=
  match l with
  | [] => false
  | c :: _ => isSpaceOrNL c

/-- Python `output.startswith(" ")`. -/
def pyStartswithSpace (l : List Char) : Bool :=
  match l with
  | [] => false
  | c :: _ => c = ' '

/-- Python `output.endswith((" ", "\n"))`. -/
def pyEndswithWS (l : List Char) : Bool :=
  match l.getLast? with
  | none => false
  | some c => isSpaceOrNL c

/-- Embeds `sequence[-1][0].Unicode += c`: append a character to the content of the
most recently committed span (identity on an empty sequence, which the
callers' guards exclude). -/
def appendLast : List TextEquivType → Char → List TextEquivType
  | [], _ => []
  | [te], c => [{ te with Unicode := te.Unicode ++ [c] }]
  | te :: rest, c => te :: appendLast rest c

/-- The `while p(output): sequence[-1][0].Unicode += output[0]; last[1] += 1;
output = output[1:]` loops of `_update_sequence` (all three predicates used
are false on the empty string, so the loop is bounded by `output`). -/
def moveHeadWhile (p : List Char → Bool) :
    List TextEquivType → Nat → List Char → List TextEquivType × Nat × List Char
  | seq, lj, [] => (seq, lj, [])
  | seq, lj, c :: rest =>
    if p (c :: rest) then moveHeadWhile p (appendLast seq c) (lj + 1) rest
    else (seq, lj, c :: rest)

/-- The `while output.endswith((" ", "\n")): j -= 1; output = output[:-1]`
loop; each iteration removes one character, so `output.length` fuel is
exact. -/
def dropTrailAux : Nat → Nat → List Char → Nat × List Char
  | 0, j, out => (j, out)
  | f + 1, j, out =>
    if pyEndswithWS out then dropTrailAux f (j - 1) out.dropLast
    else (j, out)

def dropTrailWS (j : Nat) (out : List Char) : Nat × List Char :=
  dropTrailAux out.length j out

/-- Whitespace-input branch, first block: move a leading non-whitespace run
of the output segment onto the previous committed span. -/
def wsMoveLead (committed : List TextEquivType) (lj : Nat) (out0 : List Char) :
    List TextEquivType × Nat × List Char :=
  if out0 ≠ [] ∧ ¬ pyStartswithWS out0 ∧ committed ≠ [] then
    moveHeadWhile (fun l => l ≠ [] && !pyStartswithWS l) committed lj out0
  else (committed, lj, out0)

/-- Whitespace-input branch, second block: move the trailing space-free token
to the right by shrinking `j`, recomputing the output segment. -/
def wsTrimTrail (outputL : List Char) (j0 lj : Nat) (out : List Char) : Nat × List Char :=
  if out ≠ [] ∧ ¬ pyEndswithWS out then
    (j0 - (lastSpaceToken out).length,
      pySlice outputL lj (j0 - (lastSpaceToken out).length))
  else (j0, out)

/-- Whitespace-input branch, third block: move any remaining inner
non-whitespace content onto the previous committed span. -/
def wsMoveRest (committed : List TextEquivType) (lj : Nat) (out : List Char) :
    List TextEquivType × Nat × List Char :=
  if hasNonWS out ∧ committed ≠ [] then moveHeadWhile hasNonWS committed lj out
  else (committed, lj, out)

/-- Non-whitespace-input branch, first block: move leading spaces onto the
previous committed span, but only when that span is synthetic whitespace. -/
def nwMoveLead (committed : List TextEquivType) (lj : Nat) (out0 : List Char) :
    List TextEquivType × Nat × List Char :=
  if pyStartswithSpace out0 ∧ committed ≠ [] ∧
      (committed.getLast?.map TextEquivType.index) = some (-1) then
    moveHeadWhile pyStartswithSpace committed lj out0
  else (committed, lj, out0)

/-- Non-whitespace-input branch, second block: move trailing whitespace to
the right when the next input character is itself whitespace. -/
def nwTrimTrail (inputL : List Char) (iMax i j0 : Nat) (out : List Char) : Nat × List Char :=
  if pyEndswithWS out ∧ i < iMax ∧ (inputL.get? i).elim false isSpaceOrNL then
    dropTrailWS j0 out
  else (j0, out)

/-- The body of the `if last:` block for one consecutive pair of position-map
keys `(li, i)` with output offsets `(lj, j0)`: boundary redistribution
followed by the commit (content mismatch assert, overwrite of content and
confidence).  Returns the new committed sequence and the final output
offset `j`, or `none` on the fatal assert. -/
def processPair (inputL outputL : List Char) (probs : List ℚ)
    (lookup : Nat → Option TextEquivType) (iMax : Nat)
    (committed : List TextEquivType) (li lj i j0 : Nat) :
    Option (List TextEquivType × Nat) :=
  let input_ := pySlice inputL li i
  let out0 := pySlice outputL lj j0
  let st :=
    if input_ = [' '] ∨ input_ = ['\n'] then
      let a := wsMoveLead committed lj out0
      let b := wsTrimTrail outputL j0 a.2.1 a.2.2
      let c := wsMoveRest a.1 a.2.1 b.2
      (c.1, c.2.1, b.1, c.2.2)
    else
      let a := nwMoveLead committed lj out0
      let b := nwTrimTrail inputL iMax i j0 a.2.2
      (a.1, a.2.1, b.1, b.2)
  match lookup li with
  | none => none
  | some te =>
    if te.Unicode = input_ then
      let prob := pySlice probs st.2.1 st.2.2.1
      some (st.1 ++ [{ te with Unicode := st.2.2.2, conf := some (npMeanDefault prob) }],
            st.2.2.1)
    else none

/-- State of the `for i in textequivs` loop: the emitted sequence and the
`last` pair of offsets. -/
structure UState where
  committed : List TextEquivType
  last : Option (Nat × Nat)
  deriving DecidableEq, Repr

/-- One iteration of the `for i in textequivs` loop. -/
def updateStep (inputL outputL : List Char) (probs : List ℚ)
    (realign : Nat → Option Nat) (lookup : Nat → Option TextEquivType)
    (iMax : Nat) (st : UState) (i : Nat) : Option UState :=
  let j0? :=
    match realign i with
    | some j => some j
    | none => st.last.map Prod.snd
  match j0? with
  | none => none
  | some j0 =>
    match st.last with
    | none => some { committed := st.committed, last := some (i, j0) }
    | some (li, lj) =>
      match processPair inputL outputL probs lookup iMax st.committed li lj i j0 with
      | none => none
      | some (committed', j) => some { committed := committed', last := some (i, j) }

def runKeys (inputL outputL : List Char) (probs : List ℚ)
    (realign : Nat → Option Nat) (lookup : Nat → Option TextEquivType)
    (iMax : Nat) : UState → List Nat → Option UState
  | st, [] => some st
  | st, i :: rest =>
    match updateStep inputL outputL probs realign lookup iMax st i with
    | none => none
    | some st' => runKeys inputL outputL probs realign lookup iMax st' rest

/-- Dictionary lookup in the position map (last binding wins, as in a Python
dict built by repeated assignment). -/
def mapLookup (starts : List (Nat × TextEquivType)) (k : Nat) : Option TextEquivType :=
  (starts.reverse.find? (fun p => p.1 = k)).map Prod.snd

/-- The key list iterated by `for i in textequivs` after
`textequivs.setdefault(i_max, None)`. -/
def mapKeys (starts : List (Nat × TextEquivType)) (iMax : Nat) : List Nat :=
  let keys0 := starts.map Prod.fst
  if iMax ∈ keys0 then keys0 else keys0 ++ [iMax]

/-- Embeds `_update_sequence`: apply the corrected line along the alignment path.
Returns the emitted sequence of rewritten spans, or `none` when one of the
fatal asserts fires (content mismatch, path not reaching `(i_max, j_max)`,
or non-whitespace content left on a synthetic element). -/
def update_sequence (inputL outputL : List Char) (probs : List ℚ)
    (realign : Nat → Option Nat) (starts : List (Nat × TextEquivType)) :
    Option (List TextEquivType) :=
  let iMax := inputL.length
  let jMax := outputL.length
  match runKeys inputL outputL probs realign (mapLookup starts) iMax
      { committed := [], last := none } (mapKeys starts iMax) with
  | none => none
  | some st =>
    if st.last = some (iMax, jMax) then
      if st.committed.all (fun te => !hasNonWS te.Unicode || te.index != -1) then
        some st.committed
      else none
    else none

/-!
### Invariants of the redistribution loops
-/

/-- Concatenated contents of a list of spans. -/
def concatU (l : List TextEquivType) : List Char :=
  (l.map TextEquivType.Unicode).flatten

/-- The consecutive key pairs traversed by the `for i in textequivs` loop,
starting from an optional previous key. -/
def pairsOf : Option Nat → List Nat → List (Nat × Nat)
  | _, [] => []
  | none, i :: rest => pairsOf (some i) rest
  | some li, i :: rest => (li, i) :: pairsOf (some i) rest

def fwGo (A : Nat → Nat → ℚ) (θ : ℚ) (iMax jMax : Nat) :
    Nat → (Nat → Nat → ℚ) → Nat → Nat → Bool → Option (Nat → Nat → ℚ)
  | 0, _, _, _, _ => none
  | f + 1, V, i, j, true =>
    let im1 := if 0 < i then V (i - 1) j else 0
    let jm1 := if 0 < j then V i (j - 1) else 0
    let ijm1 := if 0 < i ∧ 0 < j then V (i - 1) (j - 1) else 0
    let v := A j i + max im1 (max jm1 ijm1)
    fwGo A θ iMax jMax f (fun a b => if a = i ∧ b = j then v else V a b) i j false
  | f + 1, V, i, j, false =>
    if i + 1 = iMax then
      if j + 1 = jMax then some V
      else if A (j + 1) 0 > θ then fwGo A θ iMax jMax f V 0 (j + 1) true
      else fwGo A θ iMax jMax f V 0 (j + 1) false
    else if A j (i + 1) > θ then fwGo A θ iMax jMax f V (i + 1) j true
    else fwGo A θ iMax jMax f V (i + 1) j false

/-- Embeds `np.argmax`: first index of the maximum element (0 on an empty list,
which the callers exclude). -/
def idxOfMax : List ℚ → Nat
  | [] => 0
  | [_] => 0
  | x :: y :: t =>
    let k := idxOfMax (y :: t)
    if (y :: t).getD k 0 > x then k + 1 else 0

/-- Terminal-cell row: `i_max - 1` when `i_max <= j_max`, otherwise
`j_max - 2 +` the argmax over rows `max(0, j_max - 2)..` of the last
column (Python's negative slice start `j_max - i_max - 2` clamps to that). -/
def bwStartI (V : Nat → Nat → ℚ) (iMax jMax : Nat) : ℤ :=
  if iMax ≤ jMax then (iMax : ℤ) - 1
  else (jMax : ℤ) - 2 +
    idxOfMax (((List.range iMax).drop (jMax - 2)).map (fun r => V r (jMax - 1)))

/-- Terminal-cell column, symmetrically. -/
def bwStartJ (V : Nat → Nat → ℚ) (iMax jMax : Nat) : ℤ :=
  if jMax ≤ iMax then (jMax : ℤ) - 1
  else (iMax : ℤ) - 2 +
    idxOfMax (((List.range jMax).drop (iMax - 2)).map (fun c => V (iMax - 1) c))

/-- Python negative-index wrapping for `viterbi_fw[i - 1, j]` at `i = 0`. -/
def wrapIdx (n : Nat) (a : ℤ) : Nat := (if a < 0 then a + n else a).toNat

def vLook (V : Nat → Nat → ℚ) (iMax jMax : Nat) (a b : ℤ) : ℚ :=
  V (wrapIdx iMax a) (wrapIdx jMax b)

/-- Backward predecessor walk of `_alignment2path`: record `i ↦ j`
(overwriting), step to the arg-max predecessor, until `i < 0` or `j < 0`.
Each step decreases `i + j`, so `i + j + 2` fuel suffices. -/
def bwGo (V : Nat → Nat → ℚ) (iMax jMax : Nat) :
    Nat → (Nat → Option Nat) → ℤ → ℤ → Option (Nat → Option Nat)
  | fuel, m, i, j =>
    if i < 0 ∨ j < 0 then some m
    else
      match fuel with
      | 0 => none
      | f + 1 =>
        let m' := fun k => if k = i.toNat then some j.toNat else m k
        if vLook V iMax jMax (i - 1) j > vLook V iMax jMax i (j - 1) then
          if vLook V iMax jMax (i - 1) j > vLook V iMax jMax (i - 1) (j - 1) then
            bwGo V iMax jMax f m' (i - 1) j
          else bwGo V iMax jMax f m' (i - 1) (j - 1)
        else if vLook V iMax jMax i (j - 1) > vLook V iMax jMax (i - 1) (j - 1) then
          bwGo V iMax jMax f m' i (j - 1)
        else bwGo V iMax jMax f m' (i - 1) (j - 1)

/-- Embeds `_alignment2path`: soft alignment matrix to hard path.  The path is the
map built by the backward walk, seeded with `{i_max: j_max}` and finally
overridden with `0 ↦ 0`. -/
def alignment2path (A : Nat → Nat → ℚ) (iMax jMax : Nat) (θ : ℚ) :
    Option (Nat → Option Nat) :=
  let V0 : Nat → Nat → ℚ := fun _ _ => 0
  let fw? :=
    if 0 < iMax ∧ 0 < jMax then fwGo A θ iMax jMax (2 * iMax * jMax + 2) V0 0 0 true
    else some V0
  match fw? with
  | none => none
  | some V =>
    let m0 : Nat → Option Nat := fun k => if k = iMax then some jMax else none
    match bwGo V iMax jMax (iMax + jMax + 2) m0
        (bwStartI V iMax jMax) (bwStartJ V iMax jMax) with
    | none => none
    | some m => some (fun k => if k = 0 then some 0 else m k)

/-- Monotonicity of a partial path map. -/
def MonoMap (m : Nat → Option Nat) : Prop :=
  ∀ k1 k2 v1 v2, m k1 = some v1 → m k2 = some v2 → k1 ≤ k2 → v1 ≤ v2

def idA : Nat → Nat → ℚ := fun j i => if i = j then 1 else 0

def diagV (k : Nat) : Nat → Nat → ℚ :=
  fun a b => if a = b ∧ a < k then (a : ℚ) + 1 else 0

/-- Well-formedness of an input span for the idempotence property: nonempty
content; non-whitespace spans neither start with a space nor end with
whitespace; synthetic spans are exactly `" "` or `"\n"`; an explicit
nonzero confidence. -/
def IdInv (te : TextEquivType) : Prop :=
  te.Unicode ≠ [] ∧
  (te.Unicode ≠ [' '] → te.Unicode ≠ ['\n'] →
    pyStartswithSpace te.Unicode = false ∧ pyEndswithWS te.Unicode = false) ∧
  (te.index = -1 → te.Unicode = [' '] ∨ te.Unicode = ['\n']) ∧
  ∃ c, te.conf = some c ∧ c ≠ 0

/-- An axis-aligned box: the `xywh` dict of `ocrd_utils` with rational
coordinates. -/
structure Box where
  x : ℚ
  y : ℚ
  w : ℚ
  h : ℚ
deriving DecidableEq, Repr

/-- A PAGE-XML `GlyphType`, reduced to the only attribute the code under
review reads from a glyph: its `TextEquiv` list. -/
structure GlyphType where
  TextEquiv : List TextEquivType
deriving DecidableEq, Repr

/-- A PAGE-XML `WordType`, reduced to the attributes read or written by
`_merge_words`, `_split_word_at_glyph`, `_split_word_at_space` and
`page_update_higher_textequiv_levels`.  `textstyle` only ever matters
through its presence, so its payload is `Unit`. -/
structure WordType where
  id : List Char
  coords : Box
  language : Option (List Char)
  textstyle : Option Unit
  Glyph : List GlyphType
  TextEquiv : List TextEquivType
deriving DecidableEq, Repr

/-- The source constructs `TextEquivType(...)` without an `index` attribute
(Python `None`); the shallow `TextEquivType.index : Int` cannot hold `None`,
so such constructions use this value.  Like `None`, it differs from the
synthetic marker `-1` (the only index value the code ever tests), and no
property below depends on it. -/
def noIndex : Int := -2

/-- Python truthiness of an optional confidence: `None` and `0.0` are falsy. -/
def confTruthy (c : Option ℚ) : Bool :=
  match c with
  | none => false
  | some q => q != 0

/-- Python truthiness of an optional string attribute (`get_language()`):
`None` and the empty string are falsy, so `set_language` is skipped for
both and the attribute stays `None`. -/
def langTruthy (l : Option (List Char)) : Option (List Char) :=
  match l with
  | none => none
  | some s => if s = [] then none else some s

/-- Modelled from the spec: `_merge_words` computes the merged coordinates
as `points_from_xywh(xywh_from_points(prev.points + ' ' + next.points))`
with helpers from `ocrd_utils` (outside the sources under review); per the
spec this is the geometric union (bounding box) of the two boxes. -/
def boxUnion (a b : Box) : Box :=
  { x := min a.x b.x
    y := min a.y b.y
    w := max (a.x + a.w) (b.x + b.w) - min a.x b.x
    h := max (a.y + a.h) (b.y + b.h) - min a.y b.y }

/-- Embeds `_merge_words` (transcode.py lines 503-523).  Structure updates stand
for Python's in-place mutation of the fresh `merged` object. -/
def merge_words ( prev_ next_ : WordType) : WordType :=
  let glyphs :=
    if prev_.Glyph ≠ [] ∨ next_.Glyph ≠ [] then prev_.Glyph ++ next_.Glyph else []
  let tes :=
    if prev_.TextEquiv ≠ [] then prev_.TextEquiv else [⟨[], some 1, noIndex⟩]
  let tes :=
    match next_.TextEquiv with
    | [] => tes
    | te2 :: _ =>
      match tes with
      | [] => []
      | te :: rest =>
        { te with
          Unicode := te.Unicode ++ te2.Unicode
          conf := if confTruthy te.conf && confTruthy te2.conf then
                    some (te.conf.getD 1 * te2.conf.getD 1)
                  else te.conf } :: rest
  { id := prev_.id ++ '.' :: next_.id
    coords := boxUnion prev_.coords next_.coords
    language := langTruthy prev_.language
    textstyle := prev_.textstyle
    Glyph := glyphs
    TextEquiv := tes }

/-- Embeds `_split_word_at_space` (transcode.py lines 552-581).  `none` models the
`IndexError` on a word without `TextEquiv` and the `ValueError` of
`str.index(" ")` on a content without a space. -/
def split_word_at_space (word : WordType) : Option (WordType × WordType) :=
  match word.TextEquiv with
  | [] => none
  | te :: _ =>
    match te.Unicode.findIdx? (fun c => c = ' ') with
    | none => none
    | some pos =>
      let xywh := word.coords
      let fract : ℚ := (pos : ℚ) / (te.Unicode.length : ℚ)
      some
        ({ id := word.id ++ ['_', 'l']
           coords := { xywh with w := xywh.w * fract }
           language := langTruthy word.language
           textstyle := word.textstyle
           Glyph := []
           TextEquiv := [⟨te.Unicode.take pos, te.conf, noIndex⟩] },
         { id := word.id ++ ['_', 'r']
           coords := { xywh with x := xywh.x + xywh.w * fract,
                                 w := xywh.w * (1 - fract) }
           language := langTruthy word.language
           textstyle := word.textstyle
           Glyph := []
           TextEquiv := [⟨te.Unicode.drop (pos + 1), te.conf, noIndex⟩] })

/-- The `while True` splitting loop of `_resegment_sequence` at non-glyph
level, with explicit fuel (each pass strictly shortens the remaining
content, so any fuel above the initial content length is enough). -/
def splitParts (fuel : Nat) (w : WordType) : Option (List WordType) :=
  match fuel with
  | 0 => none
  | fuel + 1 =>
    match split_word_at_space w with
    | none => none
    | some ( prev_, next_) =>
      match next_.TextEquiv with
      | [] => none
      | te :: _ =>
        if ' ' ∈ te.Unicode then
          match splitParts fuel next_ with
          | none => none
          | some parts => some ( prev_ :: parts)
        else
          some [ prev_, next_]

/-- One iteration of the `_resegment_sequence` loop (transcode.py lines
454-501) at word level, acting on the line's current word list.  Python's
object-identity tests (`is`) become decidable equality; the `LOG.error`
branches leave the word list unchanged; `none` models an uncaught
exception from `_split_word_at_space`. -/
def resegmentEntry (sequence : List (TextEquivType × Option WordType)) (i : Nat)
    (words : List WordType) : Option (List WordType) :=
  match sequence.get? i with
  | none => some words
  | some (textequiv, word) =>
    if textequiv.index = -1 then
      if textequiv.Unicode = [] then
        if i = 0 ∨ i = sequence.length - 1 then some words
        else
          match sequence.get? (i - 1), sequence.get? (i + 1) with
          | some (_, some prev_), some (_, some next_) =>
            some ((words.filter (fun w => ¬ w = next_)).map
              (fun w => if w = prev_ then merge_words prev_ next_ else w))
          | _, _ => some words
      else some words
    else
      if ' ' ∈ textequiv.Unicode then
        match word with
        | none => some words
        | some w =>
          match splitParts ((w.TextEquiv.headD ⟨[], none, noIndex⟩).Unicode.length + 1) w with
          | none => none
          | some parts => some (words.flatMap (fun x => if x = w then parts else [x]))
      else some words

def resegmentGo (sequence : List (TextEquivType × Option WordType)) :
    List Nat → List WordType → Option (List WordType)
  | [], words => some words
  | i :: is, words =>
    match resegmentEntry sequence i words with
    | none => none
    | some ws => resegmentGo sequence is ws

/-- Embeds `_resegment_sequence` (transcode.py lines 447-501) for a single line at
word level: the enumeration loop over `sequence`, threading the line's word
list.  (The glyph-level split branch, which consults `_split_word_at_glyph`,
is outside the claims under review.) -/
def resegment_sequence (sequence : List (TextEquivType × Option WordType))
    (words : List WordType) : Option (List WordType) :=
  resegmentGo sequence (List.range sequence.length) words

/-- An entry of `sequence` that triggers neither the merge branch nor the
split branch of `_resegment_sequence`. -/
def noReseg (e : TextEquivType × Option WordType) : Prop :=
  (e.1.index = -1 ∧ e.1.Unicode ≠ []) ∨ (e.1.index ≠ -1 ∧ ' ' ∉ e.1.Unicode)

instance (e : TextEquivType × Option WordType) : Decidable (noReseg e) := by
  unfold noReseg
  infer_instance

/-- A concrete emitted word carrying content `"a"` with confidence `2`. -/
def exW1 : WordType := ⟨['p'], ⟨0, 0, 2, 2⟩, none, none, [], [⟨['a'], some 2, 0⟩]⟩

/-- A concrete emitted word carrying content `"b"` with confidence `3`. -/
def exW2 : WordType := ⟨['q'], ⟨2, 0, 2, 2⟩, none, none, [], [⟨['b'], some 3, 1⟩]⟩

/-- A concrete emitted word carrying content `"b"` with confidence `0`. -/
def exW2z : WordType := ⟨['q'], ⟨2, 0, 2, 2⟩, none, none, [], [⟨['b'], some 0, 1⟩]⟩

/-- A concrete word with content `"a b"`, confidence `2`, width `6`. -/
def exWS : WordType := ⟨['s'], ⟨1, 0, 6, 2⟩, none, none, [], [⟨['a', ' ', 'b'], some 2, 0⟩]⟩

/-- The PAGE hierarchy levels relevant to `page_update_higher_textequiv_levels`. -/
inductive Level where
  | region : Level
  | line : Level
  | word : Level
  | glyph : Level
deriving DecidableEq, Repr

/-- A PAGE-XML `TextLineType`, reduced to the attributes the propagation
reads and writes. -/
structure TextLineType where
  TextEquiv : List TextEquivType
  Word : List WordType
deriving DecidableEq, Repr

/-- A PAGE-XML text region, reduced to the attributes the propagation
reads and writes. -/
structure TextRegionType where
  TextEquiv : List TextEquivType
  TextLine : List TextLineType
deriving DecidableEq, Repr

/-- Embeds `x.get_TextEquiv()[0].Unicode if x.get_TextEquiv() else u''`. -/
def firstUnicode (tes : List TextEquivType) : List Char :=
  match tes with
  | [] => []
  | te :: _ => te.Unicode

/-- Embeds `x.get_TextEquiv()[0].conf if x.get_TextEquiv() else 1.` — the element
contributed to the `np.mean` argument list; `none` is an unset `conf`. -/
def firstConfOr1 (tes : List TextEquivType) : Option ℚ :=
  match tes with
  | [] => some 1
  | te :: _ => te.conf

/-- Embeds `page_update_higher_textequiv_levels` (transcode.py lines 583-626) on
the page's region list.  In-place `set_TextEquiv`/loop mutation becomes a
map; string `join` becomes `List.intercalate`. -/
def page_update_higher_textequiv_levels (level : Level)
    (regions : List TextRegionType) : List TextRegionType :=
  if level ≠ Level.region then
    regions.map (fun region =>
      let lines :=
        if level ≠ Level.line then
          region.TextLine.map (fun line =>
            let words :=
              if level ≠ Level.word then
                line.Word.map (fun word =>
                  { word with TextEquiv :=
                      [⟨(word.Glyph.map (fun glyph => firstUnicode glyph.TextEquiv)).flatten,
                        npMeanPy (word.Glyph.map (fun glyph => firstConfOr1 glyph.TextEquiv)),
                        noIndex⟩] })
              else line.Word
            { line with
              Word := words
              TextEquiv :=
                [⟨List.intercalate [' '] (words.map (fun word => firstUnicode word.TextEquiv)),
                  npMeanPy (words.map (fun word => firstConfOr1 word.TextEquiv)),
                  noIndex⟩] })
        else region.TextLine
      { region with
        TextLine := lines
        TextEquiv :=
          [⟨List.intercalate ['\n'] (lines.map (fun line => firstUnicode line.TextEquiv)),
            npMeanPy (lines.map (fun line => firstConfOr1 line.TextEquiv)),
            noIndex⟩] })
  else regions

/-- A glyph holding content `"a"` with confidence `9/10`. -/
def exGlyphA : GlyphType := ⟨[⟨['a'], some (9/10 : ℚ), 0⟩]⟩

/-- A glyph holding content `"b"` with confidence `4/5`. -/
def exGlyphB : GlyphType := ⟨[⟨['b'], some (4/5 : ℚ), 0⟩]⟩

/-- A word made of the two glyphs above. -/
def exWordG : WordType := ⟨['g'], ⟨0, 0, 1, 1⟩, none, none, [exGlyphA, exGlyphB], []⟩

/-- A glyph holding content `"c"` with confidence `1/2`. -/
def exGlyphC : GlyphType := ⟨[⟨['c'], some (1/2 : ℚ), 0⟩]⟩

/-- A word made of the single glyph `exGlyphC`. -/
def exWordG2 : WordType := ⟨['h'], ⟨0, 0, 1, 1⟩, none, none, [exGlyphC], []⟩

/-- A line containing the two glyph-bearing words `exWordG` and `exWordG2`. -/
def exLineG : TextLineType := ⟨[], [exWordG, exWordG2]⟩

/-- A region with one line containing the words `exWordG` and `exWordG2`. -/
def exRegionG : TextRegionType := ⟨[], [exLineG]⟩

/-- A line holding content `"ab"` with confidence `9/10` and no words. -/
def exLineA : TextLineType := ⟨[⟨['a', 'b'], some (9/10 : ℚ), 0⟩], []⟩

/-- A line holding content `"cd"` with confidence `7/10` and no words. -/
def exLineB : TextLineType := ⟨[⟨['c', 'd'], some (7/10 : ℚ), 0⟩], []⟩

/-- A region with the two lines `exLineA` and `exLineB`. -/
def exRegionL : TextRegionType := ⟨[], [exLineA, exLineB]⟩

/-- A word `"the"` with confidence `9/10`. -/
def exWThe : WordType := ⟨['w'], ⟨0, 0, 1, 1⟩, none, none, [], [⟨['t', 'h', 'e'], some (9/10 : ℚ), 0⟩]⟩

/-- A word `"cat"` with confidence `4/5`. -/
def exWCat : WordType := ⟨['v'], ⟨0, 0, 1, 1⟩, none, none, [], [⟨['c', 'a', 't'], some (4/5 : ℚ), 0⟩]⟩

/-- A region with one line containing the words `"the"` and `"cat"`. -/
def exRegionW : TextRegionType := ⟨[], [⟨[], [exWThe, exWCat]⟩]⟩

theorem gapSub_length_pos (te : TextEquivType) : 0 < (gapSub te).Unicode.length := by
  unfold gapSub
  by_cases h : te.Unicode = [] <;> simp [h]
  exact List.length_pos.mpr h

theorem offsetsFrom_cons (i : Nat) (te : TextEquivType) (rest : List TextEquivType) :
    offsetsFrom i (te :: rest) =
      (i, gapSub te) :: offsetsFrom (i + (gapSub te).Unicode.length) rest := rfl

theorem extractLine_cons (te : TextEquivType) (rest : List TextEquivType) :
    extractLine (te :: rest) = (gapSub te).Unicode ++ extractLine rest := by
  simp [extractLine]

theorem extractConf_cons (te : TextEquivType) (rest : List TextEquivType) :
    extractConf (te :: rest) =
      List.replicate (gapSub te).Unicode.length (effConf te.conf) ++ extractConf rest := by
  simp [extractConf]

theorem sumSpanLengths_cons (p : Nat × TextEquivType) (rest : List (Nat × TextEquivType)) :
    sumSpanLengths (p :: rest) = p.2.Unicode.length + sumSpanLengths rest := by
  simp [sumSpanLengths]

theorem extractStep_eq (mapping : List Char) (i : Nat) (acc : LineStrings)
    (te : TextEquivType) (hok : te.Unicode = [] → GAP ∉ mapping) :
    extractStep mapping (i, acc) te =
      some (i + (gapSub te).Unicode.length,
        { line := acc.line ++ (gapSub te).Unicode
          conf := acc.conf ++ List.replicate (gapSub te).Unicode.length (effConf te.conf)
          starts := acc.starts ++ [(i, gapSub te)] }) := by
  unfold extractStep gapSub
  by_cases h : te.Unicode = []
  · simp only [h, if_pos rfl, if_true]
    rw [if_neg (hok h)]
    rfl
  · simp [h]

theorem extractFold_eq (mapping : List Char) :
    ∀ (seq : List TextEquivType) (i : Nat) (acc : LineStrings),
    (∀ te ∈ seq, te.Unicode = [] → GAP ∉ mapping) →
    extractFold mapping (i, acc) seq =
      some (i + (extractLine seq).length,
        { line := acc.line ++ extractLine seq
          conf := acc.conf ++ extractConf seq
          starts := acc.starts ++ offsetsFrom i seq }) := by
  intro seq
  induction seq with
  | nil => intro i acc _; simp [extractFold, extractLine, extractConf, offsetsFrom]
  | cons te rest ih =>
    intro i acc hok
    unfold extractFold
    rw [extractStep_eq mapping i acc te (hok te (List.mem_cons_self te rest))]
    simp only [Option.bind_eq_bind, Option.some_bind]
    rw [ih (i + (gapSub te).Unicode.length) _
      (fun t ht => hok t (List.mem_cons_of_mem te ht))]
    simp [extractLine_cons, extractConf_cons, offsetsFrom_cons,
      List.append_assoc, Nat.add_assoc]

theorem extractFold_fails (mapping : List Char) (hmem : GAP ∈ mapping) :
    ∀ (seq : List TextEquivType) (i : Nat) (acc : LineStrings),
    (∃ te ∈ seq, te.Unicode = []) →
    extractFold mapping (i, acc) seq = none := by
  intro seq
  induction seq with
  | nil => intro _ _ h; rcases h with ⟨_, h, _⟩; cases h
  | cons te rest ih =>
    intro i acc h
    by_cases hte : te.Unicode = []
    · unfold extractFold extractStep
      simp [hte, hmem]
    · rcases h with ⟨t, ht, htempty⟩
      rcases List.mem_cons.mp ht with rfl | hmem'
      · exact absurd htempty hte
      · unfold extractFold
        rw [extractStep_eq mapping i acc te (fun h => absurd h hte)]
        simp only [Option.bind_eq_bind, Option.some_bind]
        exact ih _ _ ⟨t, hmem', htempty⟩

/-- Characterization of successful per-line extraction. -/
theorem line_sequence2strings_eq (mapping : List Char) (seq : List TextEquivType)
    (hok : ∀ te ∈ seq, te.Unicode = [] → GAP ∉ mapping) :
    line_sequence2strings mapping seq =
      some ⟨extractLine seq, extractConf seq, offsetsFrom 0 seq⟩ := by
  unfold line_sequence2strings
  rw [extractFold_eq mapping seq 0 ⟨[], [], []⟩ hok]
  rfl

theorem line_sequence2strings_fails (mapping : List Char) (seq : List TextEquivType)
    (hmem : GAP ∈ mapping) (h : ∃ te ∈ seq, te.Unicode = []) :
    line_sequence2strings mapping seq = none := by
  unfold line_sequence2strings
  rw [extractFold_fails mapping hmem seq 0 ⟨[], [], []⟩ h]
  rfl

theorem line_sequence2strings_success_shape (mapping : List Char)
    (seq : List TextEquivType) (ls : LineStrings)
    (h : line_sequence2strings mapping seq = some ls) :
    ls = ⟨extractLine seq, extractConf seq, offsetsFrom 0 seq⟩ := by
  by_cases hok : ∀ te ∈ seq, te.Unicode = [] → GAP ∉ mapping
  · rw [line_sequence2strings_eq mapping seq hok] at h
    exact (Option.some_inj.mp h).symm
  · exfalso
    push_neg at hok
    rcases hok with ⟨te, hte, hempty, hmem⟩
    rw [line_sequence2strings_fails mapping seq hmem ⟨te, hte, hempty⟩] at h
    cases h

theorem sumSpanLengths_offsetsFrom (seq : List TextEquivType) :
    ∀ i, sumSpanLengths (offsetsFrom i seq) = (extractLine seq).length := by
  induction seq with
  | nil => intro i; simp [offsetsFrom, sumSpanLengths, extractLine]
  | cons te rest ih =>
    intro i
    rw [offsetsFrom_cons, sumSpanLengths_cons, extractLine_cons, ih]
    simp

/-!
## EditDistributor: `_update_sequence`

The `(TextEquiv, Word, TextLine)` tuples of the emitted sequence are
represented by their `TextEquiv` component; the `words`/`textlines`
dictionaries share the keys of `textequivs` and are only carried along in
the source.  The position-map dictionary is an association list whose keys
are distinct (guaranteed by the extractor); dictionary lookup takes the
last binding, iteration follows insertion order.
-/

theorem concatU_append (a b : List TextEquivType) :
    concatU (a ++ b) = concatU a ++ concatU b := by
  simp [concatU]

theorem appendLast_length (seq : List TextEquivType) (c : Char) :
    (appendLast seq c).length = seq.length := by
  induction seq with
  | nil => rfl
  | cons te rest ih =>
    cases rest with
    | nil => rfl
    | cons te2 rest2 => simpa [appendLast] using ih

theorem concatU_appendLast (seq : List TextEquivType) (c : Char) (h : seq ≠ []) :
    concatU (appendLast seq c) = concatU seq ++ [c] := by
  induction seq with
  | nil => exact absurd rfl h
  | cons te rest ih =>
    cases rest with
    | nil => simp [appendLast, concatU]
    | cons te2 rest2 =>
      have := ih (by simp)
      simp only [appendLast, concatU, List.map_cons, List.flatten_cons] at this ⊢
      rw [this]
      simp [List.append_assoc]

theorem pySlice_cons_elim {l : List Char} {a b : Nat} {c : Char} {rest : List Char}
    (h : pySlice l a b = c :: rest) :
    l.get? a = some c ∧ rest = pySlice l (a + 1) b ∧ a + 1 ≤ b ∧ a < l.length := by
  unfold pySlice at h ⊢
  rcases hba : b - a with _ | m
  · rw [hba] at h; simp at h
  · rw [hba] at h
    rcases hd : l.drop a with _ | ⟨d, ds⟩
    · rw [hd] at h; simp at h
    · rw [hd] at h
      simp only [List.take_succ_cons] at h
      obtain ⟨hdc, hrest⟩ := List.cons.inj h
      rw [hdc] at hd
      have hga : l.get? a = some c := by
        have h0 : (l.drop a).get? 0 = some c := by rw [hd]; rfl
        rwa [List.get?_drop, Nat.add_zero] at h0
      have halen : a < l.length := by
        have := List.get?_eq_some.mp hga
        exact this.choose
      refine ⟨hga, ?_, by omega, halen⟩
      have hds : ds = l.drop (a + 1) := by
        have : (l.drop a).drop 1 = l.drop (a + 1) := by
          rw [List.drop_drop]
        rw [hd] at this
        simpa using this
      rw [← hrest, hds]
      congr 1
      omega

theorem take_snoc_get {l : List Char} {a : Nat} {c : Char} (h : l.get? a = some c) :
    l.take a ++ [c] = l.take (a + 1) := by
  rw [List.take_succ, ← List.get?_eq_getElem?, h]
  rfl

theorem pySlice_nil_of_le {l : List Char} {a b : Nat} (h : b ≤ a) :
    pySlice l a b = [] := by
  unfold pySlice
  rw [Nat.sub_eq_zero_of_le h]
  rfl

/-- Effect of the head-moving loops: characters are transferred one by one
from the front of the output slice onto the last committed span. -/
theorem moveHeadWhile_spec (outputL : List Char) (p : List Char → Bool) :
    ∀ (out : List Char) (seq : List TextEquivType) (lj j : Nat),
    seq ≠ [] → concatU seq = outputL.take lj → out = pySlice outputL lj j → lj ≤ j →
    ∃ seq' lj', moveHeadWhile p seq lj out = (seq', lj', pySlice outputL lj' j) ∧
      seq' ≠ [] ∧ concatU seq' = outputL.take lj' ∧ lj ≤ lj' ∧ lj' ≤ j := by
  intro out
  induction out with
  | nil =>
    intro seq lj j hne hcat hsl hlj
    exact ⟨seq, lj, by rw [moveHeadWhile, ← hsl], hne, hcat, le_refl _, hlj⟩
  | cons c rest ih =>
    intro seq lj j hne hcat hsl hlj
    have helim := pySlice_cons_elim hsl.symm
    obtain ⟨hget, hrest, hab, _⟩ := helim
    unfold moveHeadWhile
    by_cases hp : p (c :: rest) = true
    · rw [if_pos hp]
      have hne' : appendLast seq c ≠ [] := by
        intro hcon
        have := appendLast_length seq c
        rw [hcon] at this
        exact hne (List.eq_nil_of_length_eq_zero this.symm)
      have hcat' : concatU (appendLast seq c) = outputL.take (lj + 1) := by
        rw [concatU_appendLast seq c hne, hcat, take_snoc_get hget]
      obtain ⟨seq', lj', hrun, h1, h2, h3, h4⟩ :=
        ih (appendLast seq c) (lj + 1) j hne' hcat' hrest hab
      exact ⟨seq', lj', hrun, h1, h2, by omega, h4⟩
    · rw [if_neg hp]
      exact ⟨seq, lj, by rw [← hsl], hne, hcat, le_refl _, hlj⟩

theorem pySlice_dropLast {l : List Char} {a b : Nat} (hab : a ≤ b) (hb : b ≤ l.length) :
    (pySlice l a b).dropLast = pySlice l a (b - 1) := by
  unfold pySlice
  rw [List.dropLast_eq_take, List.length_take, List.take_take]
  have hlen : (l.drop a).length = l.length - a := List.length_drop a l
  congr 1
  omega

/-- Effect of the trailing-whitespace-dropping loop. -/
theorem dropTrailAux_spec (outputL : List Char) :
    ∀ (fuel : Nat) (out : List Char) (lj j : Nat),
    out = pySlice outputL lj j → lj ≤ j → j ≤ outputL.length → out.length ≤ fuel →
    ∃ j', dropTrailAux fuel j out = (j', pySlice outputL lj j') ∧ lj ≤ j' ∧ j' ≤ j := by
  intro fuel
  induction fuel with
  | zero =>
    intro out lj j hsl hlj hjb hfuel
    have : out = [] := List.eq_nil_of_length_eq_zero (Nat.le_zero.mp hfuel)
    subst this
    exact ⟨j, by rw [dropTrailAux, ← hsl], hlj, le_refl _⟩
  | succ f ih =>
    intro out lj j hsl hlj hjb hfuel
    unfold dropTrailAux
    by_cases hp : pyEndswithWS out = true
    · rw [if_pos hp]
      have hone : out ≠ [] := by
        intro hcon
        rw [hcon] at hp
        simp [pyEndswithWS] at hp
      have hlt : lj < j := by
        rcases Nat.lt_or_ge lj j with h | h
        · exact h
        · exact absurd (pySlice_nil_of_le h) (by rw [← hsl] at *; exact fun hh => hone (hsl ▸ hh))
      have hdl : out.dropLast = pySlice outputL lj (j - 1) := by
        rw [hsl]; exact pySlice_dropLast hlj hjb
      have hlen : out.dropLast.length ≤ f := by
        have h1 : out.dropLast.length = out.length - 1 := by
          simp [List.length_dropLast]
        have h2 : 1 ≤ out.length := List.length_pos.mpr hone
        omega
      obtain ⟨j', hrun, h1, h2⟩ := ih out.dropLast lj (j - 1) hdl (by omega) (by omega) hlen
      exact ⟨j', hrun, h1, by omega⟩
    · rw [if_neg hp]
      exact ⟨j, by rw [← hsl], hlj, le_refl _⟩

theorem pySlice_length_le (l : List Char) (a b : Nat) :
    (pySlice l a b).length ≤ b - a := by
  unfold pySlice
  simp

theorem lastSpaceToken_length_le (l : List Char) :
    (lastSpaceToken l).length ≤ l.length := by
  unfold lastSpaceToken
  calc (l.reverse.takeWhile (fun c => decide (c ≠ ' '))).reverse.length
      = (l.reverse.takeWhile (fun c => decide (c ≠ ' '))).length := List.length_reverse _
    _ ≤ l.reverse.length := (List.takeWhile_sublist _).length_le
    _ = l.length := List.length_reverse _

/-- Common shape of the three head-moving blocks: an optional bounded
transfer of leading output characters onto the previous committed span. -/
theorem moveStage_spec (outputL : List Char) (p : List Char → Bool)
    (cond : Prop) [Decidable cond] (committed : List TextEquivType) (lj j0 : Nat)
    (hne : cond → committed ≠ [])
    (hcat : concatU committed = outputL.take lj) (hlj : lj ≤ j0) :
    ∃ c' lj',
      (if cond then moveHeadWhile p committed lj (pySlice outputL lj j0)
       else (committed, lj, pySlice outputL lj j0)) = (c', lj', pySlice outputL lj' j0) ∧
      concatU c' = outputL.take lj' ∧ lj ≤ lj' ∧ lj' ≤ j0 := by
  by_cases hc : cond
  · rw [if_pos hc]
    obtain ⟨seq', lj', hrun, _, h2, h3, h4⟩ :=
      moveHeadWhile_spec outputL p (pySlice outputL lj j0) committed lj j0 (hne hc) hcat rfl hlj
    exact ⟨seq', lj', hrun, h2, h3, h4⟩
  · rw [if_neg hc]
    exact ⟨committed, lj, rfl, hcat, le_refl _, hlj⟩

theorem wsMoveLead_spec (outputL : List Char) (committed : List TextEquivType)
    (lj j0 : Nat) (hcat : concatU committed = outputL.take lj) (hlj : lj ≤ j0) :
    ∃ c' lj', wsMoveLead committed lj (pySlice outputL lj j0) =
        (c', lj', pySlice outputL lj' j0) ∧
      concatU c' = outputL.take lj' ∧ lj ≤ lj' ∧ lj' ≤ j0 := by
  unfold wsMoveLead
  exact moveStage_spec outputL _ _ committed lj j0 (fun hc => hc.2.2) hcat hlj

theorem wsMoveRest_spec (outputL : List Char) (committed : List TextEquivType)
    (lj j0 : Nat) (hcat : concatU committed = outputL.take lj) (hlj : lj ≤ j0) :
    ∃ c' lj', wsMoveRest committed lj (pySlice outputL lj j0) =
        (c', lj', pySlice outputL lj' j0) ∧
      concatU c' = outputL.take lj' ∧ lj ≤ lj' ∧ lj' ≤ j0 := by
  unfold wsMoveRest
  exact moveStage_spec outputL _ _ committed lj j0 (fun hc => hc.2) hcat hlj

theorem nwMoveLead_spec (outputL : List Char) (committed : List TextEquivType)
    (lj j0 : Nat) (hcat : concatU committed = outputL.take lj) (hlj : lj ≤ j0) :
    ∃ c' lj', nwMoveLead committed lj (pySlice outputL lj j0) =
        (c', lj', pySlice outputL lj' j0) ∧
      concatU c' = outputL.take lj' ∧ lj ≤ lj' ∧ lj' ≤ j0 := by
  unfold nwMoveLead
  exact moveStage_spec outputL _ _ committed lj j0 (fun hc => hc.2.1) hcat hlj

theorem wsTrimTrail_spec (outputL : List Char) (j0 lj : Nat) (hlj : lj ≤ j0) :
    ∃ j', wsTrimTrail outputL j0 lj (pySlice outputL lj j0) =
        (j', pySlice outputL lj j') ∧ lj ≤ j' ∧ j' ≤ j0 := by
  unfold wsTrimTrail
  by_cases hc : pySlice outputL lj j0 ≠ [] ∧ ¬ pyEndswithWS (pySlice outputL lj j0)
  · rw [if_pos hc]
    refine ⟨j0 - (lastSpaceToken (pySlice outputL lj j0)).length, rfl, ?_, by omega⟩
    have h1 := lastSpaceToken_length_le (pySlice outputL lj j0)
    have h2 := pySlice_length_le outputL lj j0
    have h3 : pySlice outputL lj j0 ≠ [] := hc.1
    have h4 : 0 < (pySlice outputL lj j0).length := List.length_pos.mpr h3
    omega
  · rw [if_neg hc]
    exact ⟨j0, rfl, hlj, le_refl _⟩

theorem nwTrimTrail_spec (inputL outputL : List Char) (iMax i j0 lj : Nat)
    (hlj : lj ≤ j0) (hj0 : j0 ≤ outputL.length) :
    ∃ j', nwTrimTrail inputL iMax i j0 (pySlice outputL lj j0) =
        (j', pySlice outputL lj j') ∧ lj ≤ j' ∧ j' ≤ j0 := by
  unfold nwTrimTrail
  by_cases hc : pyEndswithWS (pySlice outputL lj j0) ∧ i < iMax ∧
      (inputL.get? i).elim false isSpaceOrNL
  · rw [if_pos hc]
    unfold dropTrailWS
    exact dropTrailAux_spec outputL (pySlice outputL lj j0).length
      (pySlice outputL lj j0) lj j0 rfl hlj hj0 (le_refl _)
  · rw [if_neg hc]
    exact ⟨j0, rfl, hlj, le_refl _⟩

theorem take_append_pySlice (l : List Char) (a b : Nat) (h : a ≤ b) :
    l.take a ++ pySlice l a b = l.take b := by
  unfold pySlice
  rw [← List.take_add]
  congr 1
  omega

/-- Workhorse for the partitioning invariant: a successful pair commit
extends the committed concatenation exactly to output offset `j`. -/
theorem processPair_spec (inputL outputL : List Char) (probs : List ℚ)
    (lookup : Nat → Option TextEquivType) (iMax : Nat)
    (committed : List TextEquivType) (li lj i j0 : Nat)
    (committed' : List TextEquivType) (j : Nat)
    (hcat : concatU committed = outputL.take lj) (hlj : lj ≤ j0)
    (hj0 : j0 ≤ outputL.length)
    (h : processPair inputL outputL probs lookup iMax committed li lj i j0 =
      some (committed', j)) :
    concatU committed' = outputL.take j ∧ j ≤ j0 := by
  simp only [processPair] at h
  by_cases hws : pySlice inputL li i = [' '] ∨ pySlice inputL li i = ['\n']
  · rw [if_pos hws] at h
    obtain ⟨c1, lj1, ha, hcat1, hlj1, hle1⟩ := wsMoveLead_spec outputL committed lj j0 hcat hlj
    rw [ha] at h
    obtain ⟨j1, hb, hlj1b, hj1le⟩ := wsTrimTrail_spec outputL j0 lj1 hle1
    rw [hb] at h
    obtain ⟨c2, lj2, hcmv, hcat2, hlj2a, hlj2b⟩ := wsMoveRest_spec outputL c1 lj1 j1 hcat1 hlj1b
    rw [hcmv] at h
    rcases hlk : lookup li with _ | te
    · rw [hlk] at h; cases h
    · rw [hlk] at h
      dsimp only at h
      by_cases hmatch : te.Unicode = pySlice inputL li i
      · rw [if_pos hmatch] at h
        simp only [Option.some_inj, Prod.mk.injEq] at h
        obtain ⟨hcom, hj⟩ := h
        subst hcom
        subst hj
        constructor
        · rw [concatU_append, hcat2]
          simp only [concatU, List.map_cons, List.map_nil, List.flatten_cons,
            List.flatten_nil, List.append_nil]
          exact take_append_pySlice outputL lj2 j1 hlj2b
        · omega
      · rw [if_neg hmatch] at h; cases h
  · rw [if_neg hws] at h
    obtain ⟨c1, lj1, ha, hcat1, hlj1, hle1⟩ := nwMoveLead_spec outputL committed lj j0 hcat hlj
    rw [ha] at h
    obtain ⟨j1, hb, hlj1b, hj1le⟩ := nwTrimTrail_spec inputL outputL iMax i j0 lj1 hle1 hj0
    rw [hb] at h
    rcases hlk : lookup li with _ | te
    · rw [hlk] at h; cases h
    · rw [hlk] at h
      dsimp only at h
      by_cases hmatch : te.Unicode = pySlice inputL li i
      · rw [if_pos hmatch] at h
        simp only [Option.some_inj, Prod.mk.injEq] at h
        obtain ⟨hcom, hj⟩ := h
        subst hcom
        subst hj
        constructor
        · rw [concatU_append, hcat1]
          simp only [concatU, List.map_cons, List.map_nil, List.flatten_cons,
            List.flatten_nil, List.append_nil]
          exact take_append_pySlice outputL lj1 j1 hlj1b
        · omega
      · rw [if_neg hmatch] at h; cases h

/-- A successful commit also certifies that the committed span's prior
content matched the input slice of its boundary pair. -/
theorem processPair_success_match (inputL outputL : List Char) (probs : List ℚ)
    (lookup : Nat → Option TextEquivType) (iMax : Nat)
    (committed : List TextEquivType) (li lj i j0 : Nat)
    (r : List TextEquivType × Nat)
    (h : processPair inputL outputL probs lookup iMax committed li lj i j0 = some r) :
    ∃ te, lookup li = some te ∧ te.Unicode = pySlice inputL li i := by
  simp only [processPair] at h
  rcases hlk : lookup li with _ | te
  · rw [hlk] at h; cases h
  · rw [hlk] at h
    dsimp only at h
    by_cases hmatch : te.Unicode = pySlice inputL li i
    · exact ⟨te, rfl, hmatch⟩
    · rw [if_neg hmatch] at h; cases h

/-!
### Loop-level invariants
-/

theorem updateStep_none_last {inputL outputL : List Char} {probs : List ℚ}
    {realign : Nat → Option Nat} {lookup : Nat → Option TextEquivType}
    {iMax : Nat} {st st' : UState} {i : Nat}
    (h : updateStep inputL outputL probs realign lookup iMax st i = some st')
    (hl : st.last = none) :
    ∃ j0, realign i = some j0 ∧ st' = ⟨st.committed, some (i, j0)⟩ := by
  simp only [updateStep] at h
  rw [hl] at h
  rcases hre : realign i with _ | j0
  · rw [hre] at h; simp at h
  · rw [hre] at h
    dsimp only at h
    exact ⟨j0, rfl, (Option.some_inj.mp h).symm⟩

theorem updateStep_some_last {inputL outputL : List Char} {probs : List ℚ}
    {realign : Nat → Option Nat} {lookup : Nat → Option TextEquivType}
    {iMax : Nat} {st st' : UState} {i li lj : Nat}
    (h : updateStep inputL outputL probs realign lookup iMax st i = some st')
    (hl : st.last = some (li, lj)) :
    ∃ j0 c' j,
      processPair inputL outputL probs lookup iMax st.committed li lj i j0 = some (c', j) ∧
      st' = ⟨c', some (i, j)⟩ ∧
      (realign i = some j0 ∨ (realign i = none ∧ j0 = lj)) := by
  simp only [updateStep] at h
  rw [hl] at h
  rcases hre : realign i with _ | j0
  · rw [hre] at h
    dsimp only [Option.map] at h
    rcases hpp : processPair inputL outputL probs lookup iMax st.committed li lj i lj with
      _ | ⟨c', j⟩
    · rw [hpp] at h; cases h
    · rw [hpp] at h
      dsimp only at h
      exact ⟨lj, c', j, hpp, (Option.some_inj.mp h).symm, Or.inr ⟨rfl, rfl⟩⟩
  · rw [hre] at h
    dsimp only at h
    rcases hpp : processPair inputL outputL probs lookup iMax st.committed li lj i j0 with
      _ | ⟨c', j⟩
    · rw [hpp] at h; cases h
    · rw [hpp] at h
      dsimp only at h
      exact ⟨j0, c', j, hpp, (Option.some_inj.mp h).symm, Or.inl rfl⟩

/-- On a successful run, every traversed boundary pair's span matched the
corresponding input slice. -/
theorem runKeys_match {inputL outputL : List Char} {probs : List ℚ}
    {realign : Nat → Option Nat} {lookup : Nat → Option TextEquivType} {iMax : Nat} :
    ∀ (keys : List Nat) (st st' : UState),
    runKeys inputL outputL probs realign lookup iMax st keys = some st' →
    ∀ p ∈ pairsOf (st.last.map Prod.fst) keys,
      ∃ te, lookup p.1 = some te ∧ te.Unicode = pySlice inputL p.1 p.2 := by
  intro keys
  induction keys with
  | nil => intro st st' _ p hp; simp [pairsOf] at hp
  | cons i rest ih =>
    intro st st' h p hp
    unfold runKeys at h
    rcases hstep : updateStep inputL outputL probs realign lookup iMax st i with _ | st1
    · rw [hstep] at h; cases h
    · rw [hstep] at h
      rcases hlast : st.last with _ | ⟨li, lj⟩
      · obtain ⟨j0, _, hst1⟩ := updateStep_none_last hstep hlast
        rw [hlast] at hp
        simp only [Option.map_none, pairsOf] at hp
        have hst1last : st1.last.map Prod.fst = some i := by rw [hst1]; rfl
        rw [← hst1last] at hp
        exact ih st1 st' h p hp
      · obtain ⟨j0, c', j, hpp, hst1, _⟩ := updateStep_some_last hstep hlast
        rw [hlast] at hp
        simp only [Option.map_some, pairsOf, List.mem_cons] at hp
        rcases hp with rfl | hp
        · exact processPair_success_match inputL outputL probs lookup iMax
            st.committed li lj i j0 (c', j) hpp
        · have hst1last : st1.last.map Prod.fst = some i := by rw [hst1]; rfl
          rw [← hst1last] at hp
          exact ih st1 st' h p hp

/-- On a successful run from a state whose committed contents form the
output prefix up to the last output offset, the final committed contents
form the output prefix up to the final output offset. -/
theorem runKeys_concat {inputL outputL : List Char} {probs : List ℚ}
    {realign : Nat → Option Nat} {lookup : Nat → Option TextEquivType} {iMax : Nat}
    (hmono : ∀ i1 i2 j1 j2, i1 ≤ i2 → realign i1 = some j1 → realign i2 = some j2 → j1 ≤ j2)
    (hbound : ∀ i j, realign i = some j → j ≤ outputL.length) :
    ∀ (keys : List Nat) (st st' : UState) (li lj : Nat),
    runKeys inputL outputL probs realign lookup iMax st keys = some st' →
    st.last = some (li, lj) →
    concatU st.committed = outputL.take lj →
    lj ≤ outputL.length →
    (∀ k jk, li ≤ k → realign k = some jk → lj ≤ jk) →
    List.Chain' (· ≤ ·) (li :: keys) →
    ∃ lf jf, st'.last = some (lf, jf) ∧ concatU st'.committed = outputL.take jf := by
  intro keys
  induction keys with
  | nil =>
    intro st st' li lj h hlast hcat _ _ _
    cases h
    exact ⟨li, lj, hlast, hcat⟩
  | cons i rest ih =>
    intro st st' li lj h hlast hcat hljb hP hchain
    have hli_i : li ≤ i := (List.chain'_cons.mp hchain).1
    have hchain' : List.Chain' (· ≤ ·) (i :: rest) := (List.chain'_cons.mp hchain).2
    unfold runKeys at h
    rcases hstep : updateStep inputL outputL probs realign lookup iMax st i with _ | st1
    · rw [hstep] at h; cases h
    · rw [hstep] at h
      obtain ⟨j0, c', j, hpp, hst1, hj0⟩ := updateStep_some_last hstep hlast
      have hljj0 : lj ≤ j0 := by
        rcases hj0 with hre | ⟨_, rfl⟩
        · exact hP i j0 hli_i hre
        · exact le_refl _
      have hj0b : j0 ≤ outputL.length := by
        rcases hj0 with hre | ⟨_, rfl⟩
        · exact hbound i j0 hre
        · exact hljb
      obtain ⟨hcat', hjle⟩ := processPair_spec inputL outputL probs lookup iMax
        st.committed li lj i j0 c' j hcat hljj0 hj0b hpp
      have hP' : ∀ k jk, i ≤ k → realign k = some jk → j ≤ jk := by
        intro k jk hik hrek
        rcases hj0 with hre | ⟨_, rfl⟩
        · exact le_trans hjle (hmono i k j0 jk hik hre hrek)
        · exact le_trans hjle (hP k jk (le_trans hli_i hik) hrek)
      exact ih st1 st' i j h (by rw [hst1]) (by rw [hst1]; exact hcat')
        (le_trans hjle hj0b) hP' hchain'

/-- Elimination of a successful `update_sequence` run: the loop completed,
the path reached `(i_max, j_max)`, and the emitted spans passed the final
whitespace-purity assert. -/
theorem update_sequence_success_elim {inputL outputL : List Char} {probs : List ℚ}
    {realign : Nat → Option Nat} {starts : List (Nat × TextEquivType)}
    {r : List TextEquivType}
    (h : update_sequence inputL outputL probs realign starts = some r) :
    ∃ st, runKeys inputL outputL probs realign (mapLookup starts) inputL.length
        ⟨[], none⟩ (mapKeys starts inputL.length) = some st ∧
      st.last = some (inputL.length, outputL.length) ∧ st.committed = r ∧
      ∀ te ∈ r, hasNonWS te.Unicode = true → te.index ≠ -1 := by
  simp only [update_sequence] at h
  rcases hrun : runKeys inputL outputL probs realign (mapLookup starts) inputL.length
      ⟨[], none⟩ (mapKeys starts inputL.length) with _ | st
  · rw [hrun] at h; cases h
  · rw [hrun] at h
    dsimp only at h
    by_cases hterm : st.last = some (inputL.length, outputL.length)
    · rw [if_pos hterm] at h
      by_cases hall : st.committed.all (fun te => !hasNonWS te.Unicode || te.index != -1) = true
      · rw [if_pos hall] at h
        refine ⟨st, rfl, hterm, Option.some_inj.mp h, ?_⟩
        intro te hmem hnws
        rw [← Option.some_inj.mp h] at hmem
        have := List.all_eq_true.mp hall te hmem
        simp only [Bool.or_eq_true, Bool.not_eq_true', bne_iff_ne, ne_eq] at this
        rcases this with hh | hh
        · rw [hnws] at hh; cases hh
        · exact hh
      · rw [if_neg hall] at h; cases h
    · rw [if_neg hterm] at h; cases h

theorem concatU_length (l : List TextEquivType) :
    (concatU l).length = (l.map (fun te => te.Unicode.length)).sum := by
  simp [concatU, Function.comp_def]

/-- C2 (amended): when `_update_sequence` finishes a line without a fatal
error, every emitted span whose final content contains a non-whitespace
character is a persisted span (`index ≠ -1`); a run violating this is
aborted by the final assert.  (The original claim's additional clause that
no persisted span's final content starts or ends with whitespace does not
hold, see the counterexample.) -/
theorem C2_nonws_spans_persisted (inputL outputL : List Char) (probs : List ℚ)
    (realign : Nat → Option Nat) (starts : List (Nat × TextEquivType))
    (r : List TextEquivType)
    (h : update_sequence inputL outputL probs realign starts = some r) :
    ∀ te ∈ r, hasNonWS te.Unicode = true → te.index ≠ -1 := by
  obtain ⟨st, _, _, _, hpure⟩ := update_sequence_success_elim h
  exact hpure

theorem C2_nonws_spans_persisted_witness :
    (⟨['b'], some 1, 5⟩ : TextEquivType).index ≠ -1 :=
  C2_nonws_spans_persisted ['a'] ['b'] [] (fun i => if i ≤ 1 then some i else none)
    [(0, ⟨['a'], some 1, 5⟩)] [⟨['b'], some 1, 5⟩] rfl ⟨['b'], some 1, 5⟩
    (by decide) (by decide)

/-- C2 counterexample: a successful run can leave a persisted span whose
final content starts with whitespace (a leading space cannot be moved left
when there is no previously committed span), refuting the claim's
whitespace-boundary clause. -/
theorem C2_persisted_ws_boundary_cex :
    (update_sequence ['a', 'b'] [' ', 'b'] [1, 1]
        (fun i => if i ≤ 2 then some i else none)
        [(0, ⟨['a', 'b'], some 1, 0⟩)]).map (fun r => r.map TextEquivType.Unicode) =
      some [[' ', 'b']] ∧
    (update_sequence ['a', 'b'] [' ', 'b'] [1, 1]
        (fun i => if i ≤ 2 then some i else none)
        [(0, ⟨['a', 'b'], some 1, 0⟩)]).map (fun r => r.map TextEquivType.index) =
      some [0] := ⟨rfl, rfl⟩

/-- C6 (amended): `_update_sequence` raises a fatal error for the current
line whenever some consecutive boundary pair's span has prior content
different from the input-line slice `input[prev_i:i]` (a successful run
certifies that every traversed pair matched); fatal errors can also occur
without any such mismatch, through the endpoint and whitespace-purity
asserts, so the mismatch is sufficient but not necessary. -/
theorem C6_mismatch_is_fatal (inputL outputL : List Char) (probs : List ℚ)
    (realign : Nat → Option Nat) (starts : List (Nat × TextEquivType))
    (h : ∃ p ∈ pairsOf none (mapKeys starts inputL.length),
        ∀ te, mapLookup starts p.1 = some te → te.Unicode ≠ pySlice inputL p.1 p.2) :
    update_sequence inputL outputL probs realign starts = none := by
  rcases hr : update_sequence inputL outputL probs realign starts with _ | r
  · rfl
  · exfalso
    obtain ⟨st, hrun, _, _, _⟩ := update_sequence_success_elim hr
    obtain ⟨p, hp, hmm⟩ := h
    obtain ⟨te, hte, hmatch⟩ := runKeys_match (mapKeys starts inputL.length)
      ⟨[], none⟩ st hrun p hp
    exact hmm te hte hmatch

theorem C6_mismatch_is_fatal_witness :
    update_sequence ['a', 'b'] ['a', 'b'] [1, 1]
      (fun i => if i ≤ 2 then some i else none) [(0, ⟨['a', 'x'], some 1, 0⟩)] = none :=
  C6_mismatch_is_fatal ['a', 'b'] ['a', 'b'] [1, 1]
    (fun i => if i ≤ 2 then some i else none) [(0, ⟨['a', 'x'], some 1, 0⟩)]
    ⟨(0, 2), by decide, by decide⟩

/-- C6 counterexample: a fatal error without any boundary-pair mismatch.
Both traversed pairs carry spans whose prior content equals the input
slice, yet the run is fatal (the whitespace-purity assert fires because
non-whitespace output remains on the leading synthetic space), refuting
the claim's `exactly when`. -/
theorem C6_fatal_without_mismatch_cex :
    update_sequence [' ', 'a'] ['b', ' ', 'a'] [1, 1, 1]
      (fun i => if i = 0 then some 0 else if i = 1 then some 2 else
        if i = 2 then some 3 else none)
      [(0, ⟨[' '], some 1, -1⟩), (1, ⟨['a'], some 1, 0⟩)] = none ∧
    pairsOf none (mapKeys [(0, ⟨[' '], some 1, -1⟩), (1, ⟨['a'], some 1, 0⟩)] 2) =
      [(0, 1), (1, 2)] ∧
    mapLookup [(0, ⟨[' '], some 1, -1⟩), (1, ⟨['a'], some 1, 0⟩)] 0 =
      some ⟨[' '], some 1, -1⟩ ∧
    pySlice [' ', 'a'] 0 1 = [' '] ∧
    mapLookup [(0, ⟨[' '], some 1, -1⟩), (1, ⟨['a'], some 1, 0⟩)] 1 =
      some ⟨['a'], some 1, 0⟩ ∧
    pySlice [' ', 'a'] 1 2 = ['a'] := by
  refine ⟨rfl, by decide, by decide, by decide, by decide, by decide⟩

/-- C4: the span contents listed in a line's position map partition the
line string.  Before EditDistributor: the extractor's position map spans
sum to the length of the concatenated input line.  After EditDistributor:
on a successful run along a monotone, `0 ↦ 0`, `j_max`-bounded path over
ascending keys, the emitted spans' contents concatenate exactly to the
corrected output line, so their lengths sum to its length. -/
theorem C4_position_map_partitions :
    (∀ (mapping : List Char) (seq : List TextEquivType) (ls : LineStrings),
      line_sequence2strings mapping seq = some ls →
      sumSpanLengths ls.starts = ls.line.length) ∧
    (∀ (inputL outputL : List Char) (probs : List ℚ) (realign : Nat → Option Nat)
      (starts : List (Nat × TextEquivType)) (r : List TextEquivType),
      (∀ i1 i2 j1 j2, i1 ≤ i2 → realign i1 = some j1 → realign i2 = some j2 → j1 ≤ j2) →
      (∀ i j, realign i = some j → j ≤ outputL.length) →
      (mapKeys starts inputL.length).head? = some 0 →
      realign 0 = some 0 →
      List.Chain' (· ≤ ·) (mapKeys starts inputL.length) →
      update_sequence inputL outputL probs realign starts = some r →
      concatU r = outputL ∧ (r.map (fun te => te.Unicode.length)).sum = outputL.length) := by
  constructor
  · intro mapping seq ls h
    rw [line_sequence2strings_success_shape mapping seq ls h]
    exact sumSpanLengths_offsetsFrom seq 0
  · intro inputL outputL probs realign starts r hmono hbound hhead hr0 hchain h
    obtain ⟨st, hrun, hterm, hcom, _⟩ := update_sequence_success_elim h
    rcases hkeys : mapKeys starts inputL.length with _ | ⟨k0, rest⟩
    · rw [hkeys] at hhead; cases hhead
    · rw [hkeys] at hhead
      have hk0 : k0 = 0 := by simpa using hhead
      subst hk0
      rw [hkeys] at hrun
      unfold runKeys at hrun
      rcases hstep : updateStep inputL outputL probs realign (mapLookup starts)
          inputL.length ⟨[], none⟩ 0 with _ | st1
      · rw [hstep] at hrun; cases hrun
      · rw [hstep] at hrun
        obtain ⟨j0, hrej, hst1⟩ := updateStep_none_last hstep rfl
        have hj00 : j0 = 0 := by
          rw [hr0] at hrej
          exact (Option.some_inj.mp hrej).symm
        subst hj00
        have hchain' : List.Chain' (· ≤ ·) ((0 : Nat) :: rest) := by
          rw [hkeys] at hchain; exact hchain
        obtain ⟨lf, jf, hlf, hcat⟩ := runKeys_concat hmono hbound rest st1 st 0 0
          hrun (by rw [hst1]) (by rw [hst1]; rfl) (Nat.zero_le _)
          (fun k jk _ _ => Nat.zero_le _) hchain'
        rw [hterm] at hlf
        have hjf : jf = outputL.length := (Prod.mk.injEq _ _ _ _ ▸ Option.some_inj.mp hlf).2.symm
        constructor
        · rw [← hcom, hcat, hjf, List.take_length]
        · rw [← concatU_length, ← hcom, hcat, hjf, List.take_length]

theorem C4_position_map_partitions_witness :
    sumSpanLengths [(0, ⟨['a'], some 1, 0⟩)] = (['a'] : List Char).length ∧
    concatU [⟨['b'], some 1, 5⟩] = ['b'] := by
  constructor
  · exact C4_position_map_partitions.1 [] [⟨['a'], some 1, 0⟩]
      ⟨['a'], [1], [(0, ⟨['a'], some 1, 0⟩)]⟩ rfl
  · exact (C4_position_map_partitions.2 ['a'] ['b'] [] (fun i => if i ≤ 1 then some i else none)
      [(0, ⟨['a'], some 1, 5⟩)] [⟨['b'], some 1, 5⟩]
      (by intro i1 i2 j1 j2 h12 h1 h2
          by_cases c1 : i1 ≤ 1 <;> by_cases c2 : i2 ≤ 1 <;>
            simp [c1, c2] at h1 h2 <;> omega)
      (by intro i j hj
          simp only [List.length_singleton]
          by_cases c : i ≤ 1 <;> simp [c] at hj <;> omega)
      rfl rfl
      (by rw [show mapKeys [(0, (⟨['a'], some 1, 5⟩ : TextEquivType))]
            (['a'] : List Char).length = [0, 1] from rfl]
          exact List.chain'_cons.mpr ⟨by omega, List.chain'_singleton _⟩)
      rfl).1



/-!
## Aligner: `_alignment2path`

The forward Viterbi sweep interleaves two loops: the outer loop fills the
current cell, the inner `while True` loop advances the cursor to the next
cell whose alignment score exceeds the pruning threshold.  `fwGo` is that
state machine: `phase = true` performs one cell fill, `phase = false`
performs one inner-loop iteration; every call consumes one unit of fuel
(`none` on exhaustion, which `C5` proves unreachable for the fuel used by
`alignment2path`).
-/

/-- The forward sweep's cursor `j * i_max + i` strictly increases each inner
iteration and is bounded, so `2 * i_max * j_max + 2` fuel always suffices. -/
theorem fwGo_suff (A : Nat → Nat → ℚ) (θ : ℚ) (iMax jMax : Nat) :
    ∀ (f : Nat) (V : Nat → Nat → ℚ) (i j : Nat) (ph : Bool),
    i < iMax → j < jMax →
    2 * (iMax * jMax - (j * iMax + i)) + ph.toNat < f →
    (fwGo A θ iMax jMax f V i j ph).isSome = true := by
  intro f
  induction f with
  | zero => intro V i j ph _ _ hf; omega
  | succ f ih =>
    intro V i j ph hi hj hf
    have hcX : j * iMax + i < iMax * jMax := by
      calc j * iMax + i < j * iMax + iMax := by omega
        _ = (j + 1) * iMax := by ring
        _ ≤ jMax * iMax := Nat.mul_le_mul_right iMax (by omega)
        _ = iMax * jMax := Nat.mul_comm _ _
    cases ph with
    | true =>
      show (fwGo A θ iMax jMax (f + 1) V i j true).isSome = true
      rw [fwGo]
      simp only [Bool.toNat_true] at hf
      refine ih _ i j false hi hj ?_
      simp only [Bool.toNat_false]
      omega
    | false =>
      show (fwGo A θ iMax jMax (f + 1) V i j false).isSome = true
      rw [fwGo]
      simp only [Bool.toNat_false] at hf
      by_cases hwrap : i + 1 = iMax
      · rw [if_pos hwrap]
        by_cases hdone : j + 1 = jMax
        · rw [if_pos hdone]; rfl
        · rw [if_neg hdone]
          have hj1 : j + 1 < jMax := by omega
          have hi0 : 0 < iMax := by omega
          have hc' : (j + 1) * iMax + 0 = j * iMax + i + 1 := by
            have : (j + 1) * iMax = j * iMax + iMax := by ring
            omega
          by_cases hq : A (j + 1) 0 > θ
          · rw [if_pos hq]
            refine ih _ 0 (j + 1) true hi0 hj1 ?_
            simp only [Bool.toNat_true]
            omega
          · rw [if_neg hq]
            refine ih _ 0 (j + 1) false hi0 hj1 ?_
            simp only [Bool.toNat_false]
            omega
      · rw [if_neg hwrap]
        have hi1 : i + 1 < iMax := by omega
        by_cases hq : A j (i + 1) > θ
        · rw [if_pos hq]
          refine ih _ (i + 1) j true hi1 hj ?_
          simp only [Bool.toNat_true]
          omega
        · rw [if_neg hq]
          refine ih _ (i + 1) j false hi1 hj ?_
          simp only [Bool.toNat_false]
          omega

/-- Each backward-walk step decreases `i + j`, so `i + j + 2` fuel always
suffices. -/
theorem bwGo_suff (V : Nat → Nat → ℚ) (iMax jMax : Nat) :
    ∀ (f : Nat) (m : Nat → Option Nat) (i j : ℤ),
    i + j + 2 ≤ (f : ℤ) →
    (bwGo V iMax jMax f m i j).isSome = true := by
  intro f
  induction f with
  | zero =>
    intro m i j hf
    rw [bwGo]
    have : i < 0 ∨ j < 0 := by omega
    rw [if_pos this]
    rfl
  | succ f ih =>
    intro m i j hf
    rw [bwGo]
    by_cases hneg : i < 0 ∨ j < 0
    · rw [if_pos hneg]; rfl
    · rw [if_neg hneg]
      push_neg at hneg
      have hfi : (f : ℤ) = (f + 1 : Nat) - 1 := by push_cast; ring
      split_ifs <;> apply ih <;> omega

theorem idxOfMax_lt_length : ∀ (l : List ℚ), l ≠ [] → idxOfMax l < l.length := by
  intro l
  induction l with
  | nil => intro h; exact absurd rfl h
  | cons x rest ih =>
    intro _
    cases rest with
    | nil => simp [idxOfMax]
    | cons y t =>
      rw [idxOfMax]
      have := ih (by simp)
      by_cases hgt : (y :: t).getD (idxOfMax (y :: t)) 0 > x
      · rw [if_pos hgt]
        simpa using this
      · rw [if_neg hgt]
        simp

theorem bwStartI_le (V : Nat → Nat → ℚ) (iMax jMax : Nat)
    (hI : 1 ≤ iMax) (hJ : 1 ≤ jMax) :
    bwStartI V iMax jMax ≤ (iMax : ℤ) - 1 := by
  unfold bwStartI
  by_cases hc : iMax ≤ jMax
  · rw [if_pos hc]
  · rw [if_neg hc]
    have hJI : jMax < iMax := by omega
    set l := ((List.range iMax).drop (jMax - 2)).map (fun r => V r (jMax - 1)) with hl
    have hlen : l.length = iMax - (jMax - 2) := by
      rw [hl, List.length_map, List.length_drop, List.length_range]
    have hne : l ≠ [] := by
      intro hcon
      rw [hcon] at hlen
      simp at hlen
      omega
    have hk := idxOfMax_lt_length l hne
    rw [hlen] at hk
    have h2 : (idxOfMax l : ℤ) < (iMax : ℤ) - ((jMax : ℤ) - 2) ∨
        (jMax ≤ 2 ∧ (idxOfMax l : ℤ) < iMax) := by
      by_cases hj2 : 2 ≤ jMax
      · left; push_cast; omega
      · right; constructor
        · omega
        · have : jMax - 2 = 0 := by omega
          rw [this] at hk
          push_cast
          omega
    rcases h2 with h2 | ⟨h3, h2⟩ <;> omega

theorem bwStartJ_le (V : Nat → Nat → ℚ) (iMax jMax : Nat)
    (hI : 1 ≤ iMax) (hJ : 1 ≤ jMax) :
    bwStartJ V iMax jMax ≤ (jMax : ℤ) - 1 := by
  unfold bwStartJ
  by_cases hc : jMax ≤ iMax
  · rw [if_pos hc]
  · rw [if_neg hc]
    have hIJ : iMax < jMax := by omega
    set l := ((List.range jMax).drop (iMax - 2)).map (fun c => V (iMax - 1) c) with hl
    have hlen : l.length = jMax - (iMax - 2) := by
      rw [hl, List.length_map, List.length_drop, List.length_range]
    have hne : l ≠ [] := by
      intro hcon
      rw [hcon] at hlen
      simp at hlen
      omega
    have hk := idxOfMax_lt_length l hne
    rw [hlen] at hk
    have h2 : (idxOfMax l : ℤ) < (jMax : ℤ) - ((iMax : ℤ) - 2) ∨
        (iMax ≤ 2 ∧ (idxOfMax l : ℤ) < jMax) := by
      by_cases hi2 : 2 ≤ iMax
      · left; push_cast; omega
      · right; constructor
        · omega
        · have : iMax - 2 = 0 := by omega
          rw [this] at hk
          push_cast
          omega
    rcases h2 with h2 | ⟨h3, h2⟩ <;> omega

/-- The backward walk preserves monotonicity: every new record lies weakly
below-left of all existing records, and an overwritten record only
decreases. -/
theorem bwGo_invariant (V : Nat → Nat → ℚ) (iMax jMax : Nat) :
    ∀ (f : Nat) (m : Nat → Option Nat) (i j : ℤ) (m' : Nat → Option Nat),
    bwGo V iMax jMax f m i j = some m' →
    (∀ k v, m k = some v → i ≤ (k : ℤ) ∧ j ≤ (v : ℤ)) →
    MonoMap m →
    MonoMap m' ∧ (∀ (k : Nat), i < (k : ℤ) → m' k = m k) := by
  intro f
  induction f with
  | zero =>
    intro m i j m' h hinv hmono
    rw [bwGo] at h
    by_cases hneg : i < 0 ∨ j < 0
    · rw [if_pos hneg] at h
      exact ⟨(Option.some_inj.mp h) ▸ hmono, fun k _ => by rw [← Option.some_inj.mp h]⟩
    · rw [if_neg hneg] at h; cases h
  | succ f ih =>
    intro m i j m' h hinv hmono
    rw [bwGo] at h
    by_cases hneg : i < 0 ∨ j < 0
    · rw [if_pos hneg] at h
      exact ⟨(Option.some_inj.mp h) ▸ hmono, fun k _ => by rw [← Option.some_inj.mp h]⟩
    · rw [if_neg hneg] at h
      push_neg at hneg
      obtain ⟨hi0, hj0⟩ := hneg
      set m1 : Nat → Option Nat := fun k => if k = i.toNat then some j.toNat else m k with hm1
      have hinv1 : ∀ (i' j' : ℤ), i' ≤ i → j' ≤ j →
          (∀ k v, m1 k = some v → i' ≤ (k : ℤ) ∧ j' ≤ (v : ℤ)) := by
        intro i' j' hi' hj' k v hkv
        rw [hm1] at hkv
        simp only [] at hkv
        by_cases hk : k = i.toNat
        · rw [if_pos hk] at hkv
          have hv : v = j.toNat := Option.some_inj.mp hkv.symm
          subst hk
          subst hv
          constructor
          · rw [Int.toNat_of_nonneg hi0]; exact hi'
          · rw [Int.toNat_of_nonneg hj0]; exact hj'
        · rw [if_neg hk] at hkv
          have := hinv k v hkv
          omega
      have hmono1 : MonoMap m1 := by
        intro k1 k2 v1 v2 h1 h2 hk12
        rw [hm1] at h1 h2
        simp only [] at h1 h2
        by_cases hk1 : k1 = i.toNat <;> by_cases hk2 : k2 = i.toNat
        · rw [if_pos hk1] at h1
          rw [if_pos hk2] at h2
          rw [← Option.some_inj.mp h1, ← Option.some_inj.mp h2]
        · rw [if_pos hk1] at h1
          rw [if_neg hk2] at h2
          have hb := hinv k2 v2 h2
          have hv1 : v1 = j.toNat := Option.some_inj.mp h1.symm
          subst hv1
          omega
        · rw [if_neg hk1] at h1
          rw [if_pos hk2] at h2
          have hb := hinv k1 v1 h1
          have : (i.toNat : ℤ) = i := Int.toNat_of_nonneg hi0
          omega
        · rw [if_neg hk1] at h1
          rw [if_neg hk2] at h2
          exact hmono k1 k2 v1 v2 h1 h2 hk12
      have hpres : ∀ (i' : ℤ), i' ≤ i → ∀ (k : Nat), i < (k : ℤ) → m1 k = m k := by
        intro i' _ k hk
        rw [hm1]
        simp only []
        rw [if_neg (by omega : ¬ k = i.toNat)]
      have key : ∀ (i' j' : ℤ), i' ≤ i → j' ≤ j →
          bwGo V iMax jMax f m1 i' j' = some m' →
          MonoMap m' ∧ (∀ (k : Nat), i < (k : ℤ) → m' k = m k) := by
        intro i' j' hi' hj' hrun
        obtain ⟨hm, hpr⟩ := ih m1 i' j' m' hrun (hinv1 i' j' hi' hj') hmono1
        refine ⟨hm, fun k hk => ?_⟩
        rw [hpr k (by omega), hpres i (le_refl i) k hk]
      split_ifs at h with h1 h2 h3
      · exact key (i - 1) j (by omega) (le_refl _) h
      · exact key (i - 1) (j - 1) (by omega) (by omega) h
      · exact key i (j - 1) (le_refl _) (by omega) h
      · exact key (i - 1) (j - 1) (by omega) (by omega) h

theorem alignment2path_some (A : Nat → Nat → ℚ) (iMax jMax : Nat) (θ : ℚ)
    (hI : 1 ≤ iMax) (hJ : 1 ≤ jMax) :
    ∃ V m, fwGo A θ iMax jMax (2 * iMax * jMax + 2) (fun _ _ => 0) 0 0 true = some V ∧
      bwGo V iMax jMax (iMax + jMax + 2)
        (fun k => if k = iMax then some jMax else none)
        (bwStartI V iMax jMax) (bwStartJ V iMax jMax) = some m ∧
      alignment2path A iMax jMax θ = some (fun k => if k = 0 then some 0 else m k) := by
  have hfw := fwGo_suff A θ iMax jMax (2 * iMax * jMax + 2) (fun _ _ => 0) 0 0 true
    (by omega) (by omega)
    (by simp only [Bool.toNat_true]
        have h2 : 2 * iMax * jMax = 2 * (iMax * jMax) := by ring
        omega)
  rcases hV : fwGo A θ iMax jMax (2 * iMax * jMax + 2) (fun _ _ => 0) 0 0 true with _ | V
  · rw [hV] at hfw; cases hfw
  · have hi0 := bwStartI_le V iMax jMax hI hJ
    have hj0 := bwStartJ_le V iMax jMax hI hJ
    have hbw := bwGo_suff V iMax jMax (iMax + jMax + 2)
      (fun k => if k = iMax then some jMax else none)
      (bwStartI V iMax jMax) (bwStartJ V iMax jMax) (by push_cast; omega)
    rcases hM : bwGo V iMax jMax (iMax + jMax + 2)
        (fun k => if k = iMax then some jMax else none)
        (bwStartI V iMax jMax) (bwStartJ V iMax jMax) with _ | m
    · rw [hM] at hbw; cases hbw
    · refine ⟨V, m, rfl, hM, ?_⟩
      simp only [alignment2path]
      rw [if_pos (⟨by omega, by omega⟩ : 0 < iMax ∧ 0 < jMax), hV]
      dsimp only
      rw [hM]

/-- C5: `_alignment2path` terminates for every soft alignment matrix and all
lengths `I, J ≥ 1`: the threshold-pruned forward sweep strictly advances a
bounded cursor over the `I×J` rectangle (`fwGo_suff`), and the backward
predecessor walk strictly decreases `i + j` (`bwGo_suff`), so the
fuel-instrumented embedding always returns a path within the stated fuel. -/
theorem C5_alignment2path_terminates (A : Nat → Nat → ℚ) (iMax jMax : Nat) (θ : ℚ)
    (hI : 1 ≤ iMax) (hJ : 1 ≤ jMax) :
    (alignment2path A iMax jMax θ).isSome = true := by
  obtain ⟨V, m, _, _, hp⟩ := alignment2path_some A iMax jMax θ hI hJ
  rw [hp]
  rfl

theorem C5_alignment2path_terminates_witness :
    (alignment2path (fun _ _ => 1) 3 2 (1 / 2)).isSome = true :=
  C5_alignment2path_terminates (fun _ _ => 1) 3 2 (1 / 2) (by omega) (by omega)

/-- C1: for every soft alignment matrix and lengths `I, J ≥ 1`, the hard
path returned by `_alignment2path` fixes both endpoints (`path[0] = 0`,
`path[I] = J`) and is non-decreasing over its keys. -/
theorem C1_path_endpoints_monotone (A : Nat → Nat → ℚ) (iMax jMax : Nat) (θ : ℚ)
    (hI : 1 ≤ iMax) (hJ : 1 ≤ jMax) :
    ∃ p, alignment2path A iMax jMax θ = some p ∧
      p 0 = some 0 ∧ p iMax = some jMax ∧
      ∀ i1 i2 j1 j2, p i1 = some j1 → p i2 = some j2 → i1 < i2 → j1 ≤ j2 := by
  obtain ⟨V, m, _, hbw, hp⟩ := alignment2path_some A iMax jMax θ hI hJ
  have hi0 := bwStartI_le V iMax jMax hI hJ
  have hinv0 : ∀ k v, (fun k => if k = iMax then some jMax else none) k = some v →
      bwStartI V iMax jMax ≤ (k : ℤ) ∧ bwStartJ V iMax jMax ≤ (v : ℤ) := by
    intro k v hkv
    simp only [] at hkv
    by_cases hk : k = iMax
    · rw [if_pos hk] at hkv
      have hv : v = jMax := Option.some_inj.mp hkv.symm
      rw [hk, hv]
      have hj0 := bwStartJ_le V iMax jMax hI hJ
      omega
    · rw [if_neg hk] at hkv; cases hkv
  have hmono0 : MonoMap (fun k => if k = iMax then some jMax else none) := by
    intro k1 k2 v1 v2 h1 h2 _
    simp only [] at h1 h2
    by_cases hk1 : k1 = iMax <;> by_cases hk2 : k2 = iMax <;>
      simp [hk1, hk2] at h1 h2
    omega
  obtain ⟨hmono, hpres⟩ := bwGo_invariant V iMax jMax (iMax + jMax + 2)
    (fun k => if k = iMax then some jMax else none)
    (bwStartI V iMax jMax) (bwStartJ V iMax jMax) m hbw hinv0 hmono0
  refine ⟨_, hp, by simp, ?_, ?_⟩
  · have hne : iMax ≠ 0 := by omega
    simp only [if_neg hne]
    rw [hpres iMax (by omega)]
    simp
  · intro i1 i2 j1 j2 h1 h2 h12
    by_cases hi1 : i1 = 0
    · subst hi1
      simp only [if_pos rfl] at h1
      have : j1 = 0 := Option.some_inj.mp h1.symm
      omega
    · have hi2 : i2 ≠ 0 := by omega
      simp only [if_neg hi1] at h1
      simp only [if_neg hi2] at h2
      exact hmono i1 i2 j1 j2 h1 h2 (by omega)

theorem C1_path_endpoints_monotone_witness :
    ∃ p, alignment2path (fun _ _ => 1) 2 3 (1 / 2) = some p ∧
      p 0 = some 0 ∧ p 2 = some 3 ∧
      ∀ i1 i2 j1 j2, p i1 = some j1 → p i2 = some j2 → i1 < i2 → j1 ≤ j2 :=
  C1_path_endpoints_monotone (fun _ _ => 1) 2 3 (1 / 2) (by omega) (by omega)



/-!
## C3: identity alignment and identity correction

`idA` is the exact-identity soft alignment matrix; `diagV` is the Viterbi
forward table after the first `k` diagonal cells have been filled.
-/

theorem diagV_update (k : Nat) :
    (fun a b => if a = k ∧ b = k then ((k : ℚ) + 1) else diagV k a b) = diagV (k + 1) := by
  funext a b
  unfold diagV
  by_cases hab : a = k ∧ b = k
  · obtain ⟨rfl, rfl⟩ := hab
    simp
  · rw [if_neg hab]
    by_cases h1 : a = b ∧ a < k
    · rw [if_pos h1, if_pos ⟨h1.1, by omega⟩]
    · rw [if_neg h1, if_neg ?_]
      intro ⟨he, hlt⟩
      rcases Nat.lt_or_ge a k with h | h
      · exact h1 ⟨he, h⟩
      · exact hab ⟨by omega, by omega⟩

/-- Filling diagonal cell `(k, k)` on the identity matrix writes `k + 1`. -/
theorem fw_fill_diag (θ : ℚ) (I : Nat) (f k : Nat) (hk : k < I) :
    fwGo idA θ I I (f + 1) (diagV k) k k true = fwGo idA θ I I f (diagV (k + 1)) k k false := by
  rw [fwGo]
  have hA : idA k k = 1 := by simp [idA]
  have him : (if 0 < k then diagV k (k - 1) k else 0) = 0 := by
    by_cases h : 0 < k
    · rw [if_pos h]
      unfold diagV
      rw [if_neg (by omega)]
    · rw [if_neg h]
  have hjm : (if 0 < k then diagV k k (k - 1) else 0) = 0 := by
    by_cases h : 0 < k
    · rw [if_pos h]
      unfold diagV
      rw [if_neg (by omega)]
    · rw [if_neg h]
  have hijm : (if 0 < k ∧ 0 < k then diagV k (k - 1) (k - 1) else 0) =
      if 0 < k then ((k : ℚ) - 1) + 1 else 0 := by
    by_cases h : 0 < k
    · rw [if_pos ⟨h, h⟩, if_pos h]
      unfold diagV
      rw [if_pos ⟨rfl, by omega⟩]
      have : ((k - 1 : Nat) : ℚ) = (k : ℚ) - 1 := by
        have : (1 : Nat) ≤ k := h
        push_cast [Nat.cast_sub this]
        ring
      rw [this]
    · rw [if_neg (by tauto), if_neg h]
  have hval : idA k k + max (if 0 < k then diagV k (k - 1) k else 0)
      (max (if 0 < k then diagV k k (k - 1) else 0)
        (if 0 < k ∧ 0 < k then diagV k (k - 1) (k - 1) else 0)) = (k : ℚ) + 1 := by
    rw [hA, him, hjm, hijm]
    by_cases h : 0 < k
    · rw [if_pos h]
      rw [max_eq_right, max_eq_right]
      · ring
      · have : (1 : ℚ) ≤ (k : ℚ) := by exact_mod_cast h
        linarith
      · rw [max_eq_right]
        · have : (1 : ℚ) ≤ (k : ℚ) := by exact_mod_cast h
          linarith
        · have : (1 : ℚ) ≤ (k : ℚ) := by exact_mod_cast h
          linarith
    · have hk0 : k = 0 := by omega
      subst hk0
      norm_num
  rw [hval, diagV_update]

/-- Advancing across the rest of row `j` (identity matrix, `j < i`): no cell
qualifies, so the cursor wraps to the start of row `j + 1`. -/
theorem fw_row_advance (θ : ℚ) (I : Nat) (hθ : 0 < θ) :
    ∀ (d : Nat), 1 ≤ d → ∀ (f : Nat) (V : Nat → Nat → ℚ) (i j : Nat),
    i + d = I → j < i → j + 1 < I →
    fwGo idA θ I I (f + d) V i j false = fwGo idA θ I I f V 0 (j + 1) false := by
  intro d
  induction d with
  | zero => omega
  | succ d ih =>
    intro hd f V i j hiI hji hjI
    have : f + (d + 1) = (f + d) + 1 := by omega
    rw [this, fwGo]
    by_cases hwrap : i + 1 = I
    · rw [if_pos hwrap]
      rw [if_neg (by omega : ¬ j + 1 = I)]
      have hq : ¬ idA (j + 1) 0 > θ := by
        unfold idA
        rw [if_neg (by omega)]
        exact not_lt.mpr (le_of_lt hθ)
      rw [if_neg hq]
      have hd0 : d = 0 := by omega
      rw [hd0, Nat.add_zero]
    · rw [if_neg hwrap]
      have hq : ¬ idA j (i + 1) > θ := by
        unfold idA
        rw [if_neg (by omega)]
        exact not_lt.mpr (le_of_lt hθ)
      rw [if_neg hq]
      exact ih (by omega) f V (i + 1) j (by omega) (by omega) hjI

/-- Advancing along row `j` from column `i < j` (identity matrix): the next
qualifying cell is the diagonal cell `(j, j)`. -/
theorem fw_col_advance (θ : ℚ) (I : Nat) (hθ0 : 0 < θ) (hθ1 : θ < 1) :
    ∀ (d : Nat), 1 ≤ d → ∀ (f : Nat) (V : Nat → Nat → ℚ) (i j : Nat),
    i + d = j → j < I →
    fwGo idA θ I I (f + d) V i j false = fwGo idA θ I I f V j j true := by
  intro d
  induction d with
  | zero => omega
  | succ d ih =>
    intro hd f V i j hij hjI
    have : f + (d + 1) = (f + d) + 1 := by omega
    rw [this, fwGo]
    rw [if_neg (by omega : ¬ i + 1 = I)]
    by_cases hdiag : i + 1 = j
    · have hq : idA j (i + 1) > θ := by
        unfold idA
        rw [if_pos hdiag]
        exact hθ1
      rw [if_pos hq]
      have hd0 : d = 0 := by omega
      rw [hd0, Nat.add_zero, hdiag]
    · have hq : ¬ idA j (i + 1) > θ := by
        unfold idA
        rw [if_neg hdiag]
        exact not_lt.mpr (le_of_lt hθ0)
      rw [if_neg hq]
      exact ih (by omega) f V (i + 1) j (by omega) hjI

/-- Full forward sweep on the identity matrix: from diagonal cell `k` with
`d` diagonal cells left, `(d - 1) * (I + 2) + 2` fuel beyond `f` reaches the
completed table `diagV I`. -/
theorem fw_diag_run (θ : ℚ) (I : Nat) (hθ0 : 0 < θ) (hθ1 : θ < 1) :
    ∀ (d : Nat), 1 ≤ d → ∀ (f k : Nat), k + d = I →
    fwGo idA θ I I (f + ((d - 1) * (I + 2) + 2)) (diagV k) k k true = some (diagV I) := by
  intro d
  induction d with
  | zero => omega
  | succ d ih =>
    intro hd f k hkI
    by_cases hdz : d = 0
    · subst hdz
      have hkI1 : k + 1 = I := hkI
      have h2 : f + ((1 - 1) * (I + 2) + 2) = (f + 1) + 1 := by omega
      rw [h2, fw_fill_diag θ I (f + 1) k (by omega)]
      rw [fwGo]
      rw [if_pos hkI1, if_pos hkI1]
      have : diagV (k + 1) = diagV I := by rw [hkI1]
      rw [this]
    · have hd1 : 1 ≤ d := by omega
      have hkI' : k + 1 < I := by omega
      have harith : f + ((d + 1 - 1) * (I + 2) + 2) =
          ((f + ((d - 1) * (I + 2) + 2)) + (k + 1) + (I - (k + 1)) + 1) + 1 := by
        have e1 : (d + 1 - 1) * (I + 2) = (d - 1) * (I + 2) + (I + 2) := by
          have : d + 1 - 1 = (d - 1) + 1 := by omega
          rw [this]
          ring
        omega
      rw [harith, fw_fill_diag θ I _ k (by omega)]
      rw [fwGo]
      rw [if_neg (by omega : ¬ k + 1 = I)]
      have hq : ¬ idA k (k + 1) > θ := by
        unfold idA
        rw [if_neg (by omega)]
        exact not_lt.mpr (le_of_lt hθ0)
      rw [if_neg hq]
      rw [fw_row_advance θ I hθ0 (I - (k + 1)) (by omega) _ _ (k + 1) k (by omega)
        (by omega) (by omega)]
      rw [fw_col_advance θ I hθ0 hθ1 (k + 1) (by omega) _ _ 0 (k + 1) (by omega) (by omega)]
      exact ih hd1 f (k + 1) (by omega)

theorem diagV_symm (I a b : Nat) : diagV I a b = diagV I b a := by
  unfold diagV
  by_cases h : a = b
  · rw [h]
  · rw [if_neg (by tauto), if_neg (by tauto)]

theorem diagV_zero : diagV 0 = fun _ _ => (0 : ℚ) := by
  funext a b
  simp [diagV]

theorem wrapIdx_natCast (n k : Nat) : wrapIdx n (k : ℤ) = k := by
  unfold wrapIdx
  rw [if_neg (by omega : ¬ ((k : ℤ) < 0))]
  exact Int.toNat_natCast k

theorem wrapIdx_pred_pos (n k : Nat) (hk : 1 ≤ k) : wrapIdx n ((k : ℤ) - 1) = k - 1 := by
  unfold wrapIdx
  rw [if_neg (by omega : ¬ ((k : ℤ) - 1 < 0))]
  omega

theorem wrapIdx_neg_one (n : Nat) : wrapIdx n ((0 : ℤ) - 1) = n - 1 := by
  unfold wrapIdx
  rw [if_pos (by omega : (0 : ℤ) - 1 < 0)]
  omega

/-- One backward-walk step on the completed identity table: both strict
comparisons fail, so the walk records `k ↦ k` and moves diagonally. -/
theorem bw_diag_step (I : Nat) (hI : 1 ≤ I) (f : Nat) (m : Nat → Option Nat)
    (k : Nat) (hk : k < I) :
    bwGo (diagV I) I I (f + 1) m (k : ℤ) (k : ℤ) =
      bwGo (diagV I) I I f (fun x => if x = k then some k else m x)
        ((k : ℤ) - 1) ((k : ℤ) - 1) := by
  have hw : wrapIdx I ((k : ℤ) - 1) = if 1 ≤ k then k - 1 else I - 1 := by
    by_cases h1 : 1 ≤ k
    · rw [if_pos h1, wrapIdx_pred_pos I k h1]
    · rw [if_neg h1]
      have hk0 : k = 0 := by omega
      subst hk0
      exact wrapIdx_neg_one I
  have hwlt : wrapIdx I ((k : ℤ) - 1) < I := by
    rw [hw]
    by_cases h1 : 1 ≤ k
    · rw [if_pos h1]; omega
    · rw [if_neg h1]; omega
  have hsym : vLook (diagV I) I I ((k : ℤ) - 1) (k : ℤ) =
      vLook (diagV I) I I (k : ℤ) ((k : ℤ) - 1) := by
    unfold vLook
    exact diagV_symm I _ _
  have hc1 : ¬ vLook (diagV I) I I ((k : ℤ) - 1) (k : ℤ) >
      vLook (diagV I) I I (k : ℤ) ((k : ℤ) - 1) := by
    rw [hsym]
    exact lt_irrefl _
  have hc2 : ¬ vLook (diagV I) I I (k : ℤ) ((k : ℤ) - 1) >
      vLook (diagV I) I I ((k : ℤ) - 1) ((k : ℤ) - 1) := by
    unfold vLook
    rw [wrapIdx_natCast]
    set w := wrapIdx I ((k : ℤ) - 1) with hwdef
    have hrhs : diagV I w w = (w : ℚ) + 1 := by
      unfold diagV
      rw [if_pos ⟨rfl, hwlt⟩]
    rw [hrhs]
    by_cases hkw : k = w
    · have hlhs : diagV I k w = (w : ℚ) + 1 := by
        unfold diagV
        rw [hkw, if_pos ⟨rfl, hwlt⟩]
      rw [hlhs]
      exact lt_irrefl _
    · have hlhs : diagV I k w = 0 := by
        unfold diagV
        rw [if_neg (by tauto)]
      rw [hlhs]
      exact not_lt.mpr (by positivity)
  rw [bwGo]
  rw [if_neg (by omega : ¬ ((k : ℤ) < 0 ∨ (k : ℤ) < 0))]
  rw [if_neg hc1, if_neg hc2]
  have htn : (k : ℤ).toNat = k := Int.toNat_natCast k
  rw [htn]

/-- The backward walk down the diagonal records `x ↦ x` for `x = k, …, 0`. -/
theorem bw_diag_run (I : Nat) (hI : 1 ≤ I) :
    ∀ (k : Nat), k < I → ∀ (f : Nat) (m : Nat → Option Nat),
    ∃ m', bwGo (diagV I) I I (f + (k + 1)) m (k : ℤ) (k : ℤ) = some m' ∧
      ∀ x, m' x = if x ≤ k then some x else m x := by
  intro k
  induction k with
  | zero =>
    intro _ f m
    rw [bw_diag_step I hI f m 0 (by omega)]
    rw [bwGo.eq_def]
    dsimp only
    rw [if_pos (by norm_num : ((0 : Nat) : ℤ) - 1 < 0 ∨ ((0 : Nat) : ℤ) - 1 < 0)]
    refine ⟨_, rfl, ?_⟩
    intro x
    by_cases hx : x ≤ 0
    · have hx0 : x = 0 := by omega
      subst hx0
      simp
    · rw [if_neg hx, if_neg (by omega)]
  | succ k ih =>
    intro hk f m
    have harith : f + (k + 1 + 1) = (f + (k + 1)) + 1 := by omega
    rw [harith, bw_diag_step I hI _ m (k + 1) hk]
    have hcast : ((k + 1 : Nat) : ℤ) - 1 = (k : ℤ) := by push_cast; ring
    rw [hcast]
    obtain ⟨m', hrun, hm'⟩ := ih (by omega) f (fun x => if x = k + 1 then some (k + 1) else m x)
    refine ⟨m', hrun, ?_⟩
    intro x
    rw [hm' x]
    by_cases hx : x ≤ k
    · rw [if_pos hx, if_pos (by omega)]
    · rw [if_neg hx]
      by_cases hx1 : x = k + 1
      · rw [if_pos hx1, if_pos (by omega), hx1]
      · rw [if_neg hx1, if_neg (by omega)]

/-- The identity-matrix path: for every `0 < θ < 1` and `I ≥ 1`,
`_alignment2path` returns the identity mapping on `0..I`. -/
theorem alignment2path_idA (I : Nat) (θ : ℚ) (hI : 1 ≤ I)
    (hθ0 : 0 < θ) (hθ1 : θ < 1) :
    ∃ p, alignment2path idA I I θ = some p ∧ ∀ x ≤ I, p x = some x := by
  obtain ⟨V, m, hfw, hbw, hp⟩ := alignment2path_some idA I I θ hI hI
  obtain ⟨n, hn⟩ : ∃ n, I = n + 1 := ⟨I - 1, by omega⟩
  have hfw2 : fwGo idA θ I I (2 * I * I + 2) (fun _ _ => 0) 0 0 true = some (diagV I) := by
    have hrun := fw_diag_run θ I hθ0 hθ1 I hI (n * n + n + 2) 0 (by omega)
    rw [diagV_zero] at hrun
    have harith : n * n + n + 2 + ((I - 1) * (I + 2) + 2) = 2 * I * I + 2 := by
      subst hn
      have h1 : n + 1 - 1 = n := by omega
      rw [h1]
      ring
    rw [harith] at hrun
    exact hrun
  have hVd : V = diagV I := by
    rw [hfw] at hfw2
    exact Option.some_inj.mp hfw2
  subst hVd
  have hstartI : bwStartI (diagV I) I I = (I : ℤ) - 1 := by
    unfold bwStartI
    rw [if_pos (le_refl I)]
  have hstartJ : bwStartJ (diagV I) I I = (I : ℤ) - 1 := by
    unfold bwStartJ
    rw [if_pos (le_refl I)]
  rw [hstartI, hstartJ] at hbw
  have hcast : (I : ℤ) - 1 = ((I - 1 : Nat) : ℤ) := by omega
  rw [hcast] at hbw
  have harith2 : I + I + 2 = (I + 2) + ((I - 1) + 1) := by omega
  rw [harith2] at hbw
  obtain ⟨m', hrun, hm'⟩ := bw_diag_run I hI (I - 1) (by omega) (I + 2)
    (fun k => if k = I then some I else none)
  rw [hrun] at hbw
  have hmm : m = m' := (Option.some_inj.mp hbw).symm
  subst hmm
  refine ⟨_, hp, ?_⟩
  intro x hx
  by_cases hx0 : x = 0
  · subst hx0
    simp
  · simp only [if_neg hx0]
    rw [hm' x]
    by_cases hxI : x ≤ I - 1
    · rw [if_pos hxI]
    · rw [if_neg hxI]
      have hxI2 : x = I := by omega
      rw [if_pos hxI2, hxI2]

theorem npMeanDefault_replicate (n : Nat) (c : ℚ) (hn : 1 ≤ n) :
    npMeanDefault (List.replicate n c) = c := by
  unfold npMeanDefault
  rw [if_neg (by simp; omega)]
  rw [List.sum_replicate, List.length_replicate, nsmul_eq_mul]
  have hn0 : (n : ℚ) ≠ 0 := by
    have : n ≠ 0 := by omega
    exact_mod_cast this
  field_simp

theorem textequiv_eta (te : TextEquivType) :
    ({ Unicode := te.Unicode, conf := te.conf, index := te.index } : TextEquivType) = te := by
  cases te
  rfl

theorem pySlice_triple (pre l suf : List Char) :
    pySlice (pre ++ (l ++ suf)) pre.length (pre.length + l.length) = l := by
  unfold pySlice
  rw [List.drop_left, Nat.add_sub_cancel_left, List.take_left]

theorem gapSub_eq_of_ne (te : TextEquivType) (h : te.Unicode ≠ []) : gapSub te = te := by
  unfold gapSub
  rw [if_neg h]

/-- Identity commit of one boundary pair: no redistribution block fires, the
mismatch assert passes, and the recomputed confidence equals the stored one. -/
theorem processPair_id (L : List Char) (P : List ℚ)
    (lookup : Nat → Option TextEquivType) (iMax : Nat)
    (committed : List TextEquivType) (off : Nat) (te : TextEquivType)
    (hlk : lookup off = some te)
    (hinv : IdInv te)
    (hsl : pySlice L off (off + te.Unicode.length) = te.Unicode)
    (hsp : pySlice P off (off + te.Unicode.length) =
      List.replicate te.Unicode.length (effConf te.conf)) :
    processPair L L P lookup iMax committed off off (off + te.Unicode.length)
      (off + te.Unicode.length) = some (committed ++ [te], off + te.Unicode.length) := by
  obtain ⟨hne, hnw, _, c, hc, hc0⟩ := hinv
  have heff : effConf te.conf = c := by
    rw [hc]
    show (if c = 0 then (1 : ℚ) else c) = c
    rw [if_neg hc0]
  have hmean : npMeanDefault (pySlice P off (off + te.Unicode.length)) = c := by
    rw [hsp, heff]
    exact npMeanDefault_replicate _ c (by
      have := List.length_pos.mpr hne
      omega)
  simp only [processPair]
  rw [hsl]
  by_cases hws : te.Unicode = [' '] ∨ te.Unicode = ['\n']
  · rw [if_pos hws]
    have hstart : pyStartswithWS te.Unicode = true := by
      rcases hws with h | h <;> rw [h] <;> rfl
    have hend : pyEndswithWS te.Unicode = true := by
      rcases hws with h | h <;> rw [h] <;> rfl
    have hnonws : hasNonWS te.Unicode = false := by
      rcases hws with h | h <;> rw [h] <;> rfl
    rw [show wsMoveLead committed off te.Unicode = (committed, off, te.Unicode) from by
      unfold wsMoveLead
      rw [if_neg (by rw [hstart]; tauto)]]
    rw [show wsTrimTrail L (off + te.Unicode.length) off te.Unicode =
        (off + te.Unicode.length, te.Unicode) from by
      unfold wsTrimTrail
      rw [if_neg (by rw [hend]; tauto)]]
    rw [show wsMoveRest committed off te.Unicode = (committed, off, te.Unicode) from by
      unfold wsMoveRest
      rw [if_neg (by rw [hnonws]; tauto)]]
    rw [hlk]
    dsimp only
    rw [if_pos rfl, hmean, ← hc]
  · rw [if_neg hws]
    push_neg at hws
    obtain ⟨hstart, hend⟩ := hnw hws.1 hws.2
    rw [show nwMoveLead committed off te.Unicode = (committed, off, te.Unicode) from by
      unfold nwMoveLead
      rw [if_neg (by rw [hstart]; tauto)]]
    rw [show nwTrimTrail L iMax (off + te.Unicode.length) (off + te.Unicode.length)
        te.Unicode = (off + te.Unicode.length, te.Unicode) from by
      unfold nwTrimTrail
      rw [if_neg (by rw [hend]; tauto)]]
    rw [hlk]
    dsimp only
    rw [if_pos rfl, hmean, ← hc]

theorem runKeys_nil (inputL outputL : List Char) (probs : List ℚ)
    (realign : Nat → Option Nat) (lookup : Nat → Option TextEquivType)
    (iMax : Nat) (st : UState) :
    runKeys inputL outputL probs realign lookup iMax st [] = some st := rfl

theorem runKeys_cons (inputL outputL : List Char) (probs : List ℚ)
    (realign : Nat → Option Nat) (lookup : Nat → Option TextEquivType)
    (iMax : Nat) (st : UState) (i : Nat) (rest : List Nat) :
    runKeys inputL outputL probs realign lookup iMax st (i :: rest) =
      match updateStep inputL outputL probs realign lookup iMax st i with
      | none => none
      | some st1 => runKeys inputL outputL probs realign lookup iMax st1 rest := rfl

theorem offsetsFrom_key_bounds (spans : List TextEquivType) :
    ∀ (off : Nat) (p : Nat × TextEquivType), p ∈ offsetsFrom off spans →
      off ≤ p.1 ∧ p.1 < off + (extractLine spans).length := by
  induction spans with
  | nil => intro off p hp; simp [offsetsFrom] at hp
  | cons te rest ih =>
    intro off p hp
    rw [offsetsFrom_cons] at hp
    rw [extractLine_cons]
    rcases List.mem_cons.mp hp with rfl | hp
    · have := gapSub_length_pos te
      simp only [List.length_append]
      omega
    · have := ih (off + (gapSub te).Unicode.length) p hp
      simp only [List.length_append]
      omega

theorem mapLookup_cons (x : Nat × TextEquivType) (l : List (Nat × TextEquivType)) (k : Nat) :
    mapLookup (x :: l) k =
      if (mapLookup l k).isSome then mapLookup l k
      else if x.1 = k then some x.2 else none := by
  unfold mapLookup
  rw [List.reverse_cons, List.find?_append]
  rcases hf : (l.reverse.find? fun p => p.1 = k) with _ | p
  · by_cases hx : x.1 = k
    · simp [hf, hx]
    · simp [hf, hx]
  · simp [hf]

theorem mapLookup_of_mem (l : List (Nat × TextEquivType)) :
    ∀ (k : Nat) (te : TextEquivType), (k, te) ∈ l →
    (List.Pairwise (fun a b => a.1 ≠ b.1) l) →
    mapLookup l k = some te := by
  induction l with
  | nil => intro k te h; simp at h
  | cons x l ih =>
    intro k te hmem hpw
    rw [mapLookup_cons]
    rcases List.mem_cons.mp hmem with rfl | hmem
    · have hnone : mapLookup l k = none := by
        unfold mapLookup
        rw [List.find?_eq_none.mpr]
        · rfl
        · intro p hp
          simp only [decide_eq_true_eq]
          have := (List.pairwise_cons.mp hpw).1 p (List.mem_reverse.mp hp)
          exact fun hc => this (hc ▸ rfl)
      rw [hnone]
      simp
    · have := ih k te hmem (List.pairwise_cons.mp hpw).2
      rw [this]
      rfl

theorem offsetsFrom_pairwise (spans : List TextEquivType) :
    ∀ off, List.Pairwise (fun a b => a.1 ≠ b.1) (offsetsFrom off spans) := by
  induction spans with
  | nil => intro off; simp [offsetsFrom]
  | cons te rest ih =>
    intro off
    rw [offsetsFrom_cons]
    refine List.pairwise_cons.mpr ⟨?_, ih _⟩
    intro p hp
    have := offsetsFrom_key_bounds rest (off + (gapSub te).Unicode.length) p hp
    have := gapSub_length_pos te
    simp only []
    omega

/-- Full identity run of the key loop: every remaining span is committed
unchanged and the loop ends at `(i_max, j_max) = (|L|, |L|)`. -/
theorem runKeys_id (L : List Char) (P : List ℚ) (realign : Nat → Option Nat)
    (lookup : Nat → Option TextEquivType)
    (hre : ∀ x, x ≤ L.length → realign x = some x) :
    ∀ (spans : List TextEquivType), spans ≠ [] →
    ∀ (pre : List Char) (committed : List TextEquivType),
    (∀ te ∈ spans, IdInv te) →
    L = pre ++ extractLine spans →
    P.drop pre.length = extractConf spans →
    (∀ p ∈ offsetsFrom pre.length spans, lookup p.1 = some p.2) →
    runKeys L L P realign lookup L.length
      ⟨committed, some (pre.length, pre.length)⟩
      (((offsetsFrom pre.length spans).map Prod.fst).tail ++ [L.length]) =
      some ⟨committed ++ spans, some (L.length, L.length)⟩ := by
  intro spans
  induction spans with
  | nil => intro h; exact absurd rfl h
  | cons te rest ih =>
    intro _ pre committed hinv hL hP hlook
    have hinvte : IdInv te := hinv te (List.mem_cons_self te rest)
    have hgap : gapSub te = te := gapSub_eq_of_ne te hinvte.1
    have hn1 : 1 ≤ te.Unicode.length := by
      have := List.length_pos.mpr hinvte.1
      omega
    have hkeys : ((offsetsFrom pre.length (te :: rest)).map Prod.fst).tail =
        (offsetsFrom (pre.length + te.Unicode.length) rest).map Prod.fst := by
      rw [offsetsFrom_cons, hgap]
      rfl
    rw [hkeys]
    have hLcons : L = pre ++ (te.Unicode ++ extractLine rest) := by
      rw [hL, extractLine_cons, hgap]
    have hsl : pySlice L pre.length (pre.length + te.Unicode.length) = te.Unicode := by
      rw [hLcons]
      exact pySlice_triple pre te.Unicode (extractLine rest)
    have hPc : P.drop pre.length =
        List.replicate te.Unicode.length (effConf te.conf) ++ extractConf rest := by
      rw [hP, extractConf_cons, hgap]
    have hsp : pySlice P pre.length (pre.length + te.Unicode.length) =
        List.replicate te.Unicode.length (effConf te.conf) := by
      unfold pySlice
      rw [hPc, Nat.add_sub_cancel_left]
      rw [List.take_append_of_le_length (by rw [List.length_replicate])]
      rw [List.take_of_length_le (by rw [List.length_replicate])]
    have hlkte : lookup pre.length = some te := by
      have := hlook (pre.length, gapSub te) (by rw [offsetsFrom_cons]; exact List.mem_cons_self _ _)
      rwa [hgap] at this
    have hnext_le : pre.length + te.Unicode.length ≤ L.length := by
      rw [hLcons]
      simp only [List.length_append]
      omega
    have hpp := processPair_id L P lookup L.length committed pre.length te
      hlkte hinvte hsl hsp
    cases rest with
    | nil =>
      have hLlen : L.length = pre.length + te.Unicode.length := by
        rw [hLcons]
        simp [extractLine]
      rw [← hLlen] at hpp
      rw [show offsetsFrom (pre.length + te.Unicode.length) ([] : List TextEquivType) =
        [] from rfl]
      rw [List.map_nil, List.nil_append]
      rw [runKeys_cons]
      rw [show updateStep L L P realign lookup L.length
          ⟨committed, some (pre.length, pre.length)⟩ L.length =
          some ⟨committed ++ [te], some (L.length, L.length)⟩ from by
        simp only [updateStep]
        rw [hre L.length (le_refl _)]
        dsimp only
        rw [hpp]]
      dsimp only
      rw [runKeys_nil]
    | cons r rs =>
      have hkeys2 : (offsetsFrom (pre.length + te.Unicode.length) (r :: rs)).map Prod.fst =
          (pre.length + te.Unicode.length) ::
            ((offsetsFrom (pre.length + te.Unicode.length) (r :: rs)).map Prod.fst).tail := by
        rw [offsetsFrom_cons]
        rfl
      rw [hkeys2]
      rw [List.cons_append, runKeys_cons]
      rw [show updateStep L L P realign lookup L.length
          ⟨committed, some (pre.length, pre.length)⟩ (pre.length + te.Unicode.length) =
          some ⟨committed ++ [te], some (pre.length + te.Unicode.length,
            pre.length + te.Unicode.length)⟩ from by
        simp only [updateStep]
        rw [hre (pre.length + te.Unicode.length) hnext_le]
        dsimp only
        rw [hpp]]
      have hpre' : (pre ++ te.Unicode).length = pre.length + te.Unicode.length := by
        simp
      have happ := ih (by simp) (pre ++ te.Unicode) (committed ++ [te])
        (fun t ht => hinv t (List.mem_cons_of_mem te ht))
        (by rw [hLcons, List.append_assoc])
        (by rw [hpre', ← List.drop_drop, hPc]
            rw [List.drop_append_of_le_length (by rw [List.length_replicate])]
            rw [List.drop_replicate]
            simp)
        (by intro p hp
            rw [hpre'] at hp
            refine hlook p ?_
            rw [offsetsFrom_cons, hgap]
            exact List.mem_cons_of_mem _ hp)
      rw [hpre'] at happ
      dsimp only
      rw [happ]
      simp

/-- Identity update: when the corrected output equals the input line, the
path is the identity, the probabilities are the extractor's per-character
confidences, and the spans satisfy the input invariants, `_update_sequence`
returns every span entirely unchanged. -/
theorem update_sequence_id (spans : List TextEquivType) (hne : spans ≠ [])
    (hinv : ∀ te ∈ spans, IdInv te) (realign : Nat → Option Nat)
    (hre : ∀ x, x ≤ (extractLine spans).length → realign x = some x) :
    update_sequence (extractLine spans) (extractLine spans) (extractConf spans)
      realign (offsetsFrom 0 spans) = some spans := by
  have hkeyslt : ∀ k ∈ (offsetsFrom 0 spans).map Prod.fst, k < (extractLine spans).length := by
    intro k hk
    rcases List.mem_map.mp hk with ⟨p, hp, rfl⟩
    have := offsetsFrom_key_bounds spans 0 p hp
    omega
  have hmk : mapKeys (offsetsFrom 0 spans) (extractLine spans).length =
      (offsetsFrom 0 spans).map Prod.fst ++ [(extractLine spans).length] := by
    unfold mapKeys
    rw [if_neg]
    intro hmem
    have := hkeyslt _ hmem
    omega
  have hlook : ∀ p ∈ offsetsFrom 0 spans,
      mapLookup (offsetsFrom 0 spans) p.1 = some p.2 := by
    intro p hp
    rcases p with ⟨k, te⟩
    exact mapLookup_of_mem _ k te hp (offsetsFrom_pairwise spans 0)
  obtain ⟨te, rest, hsp⟩ : ∃ te rest, spans = te :: rest := by
    rcases spans with _ | ⟨te, rest⟩
    · exact absurd rfl hne
    · exact ⟨te, rest, rfl⟩
  · simp only [update_sequence]
    rw [hmk]
    have hhead : (offsetsFrom 0 spans).map Prod.fst =
        0 :: ((offsetsFrom 0 spans).map Prod.fst).tail := by
      rw [hsp, offsetsFrom_cons]
      rfl
    rw [hhead, List.cons_append, runKeys_cons]
    rw [show updateStep (extractLine spans) (extractLine spans) (extractConf spans)
        realign (mapLookup (offsetsFrom 0 spans)) (extractLine spans).length
        ⟨[], none⟩ 0 = some ⟨[], some (0, 0)⟩ from by
      simp only [updateStep]
      rw [hre 0 (by omega)]]
    dsimp only
    have hrun := runKeys_id (extractLine spans) (extractConf spans) realign
      (mapLookup (offsetsFrom 0 spans)) hre spans hne [] [] hinv (by simp) (by simp) hlook
    simp only [List.length_nil, List.nil_append] at hrun
    rw [hrun]
    dsimp only
    rw [if_pos rfl]
    rw [if_pos]
    rw [List.all_eq_true]
    intro te' hte'
    have hi := hinv te' hte'
    by_cases hix : te'.index = -1
    · rcases hi.2.2.1 hix with h | h <;> rw [h] <;> rfl
    · have : (te'.index != -1) = true := by
        rw [bne_iff_ne]
        exact hix
      rw [this, Bool.or_true]

/-- C3 (amended): with an exactly-identity soft alignment (so `I = J`), a
threshold strictly between 0 and 1, well-formed input spans carrying
explicit nonzero confidences, and a corrected output equal to the input,
the hard path is the identity mapping on `0..I` and the full edit pass
returns every span (content, confidence and index) unchanged.  (In general
the confidence is overwritten with the mean of the model's output
probability slice, so it survives only because that slice equals the
extractor's expansion of the span's own confidence, see the
counterexample.) -/
theorem C3_identity_pipeline (θ : ℚ) (hθ0 : 0 < θ) (hθ1 : θ < 1)
    (spans : List TextEquivType) (hne : spans ≠ [])
    (hinv : ∀ te ∈ spans, IdInv te) :
    ∃ p, alignment2path idA (extractLine spans).length (extractLine spans).length θ =
        some p ∧
      (∀ x ≤ (extractLine spans).length, p x = some x) ∧
      update_sequence (extractLine spans) (extractLine spans) (extractConf spans) p
        (offsetsFrom 0 spans) = some spans := by
  have hI : 1 ≤ (extractLine spans).length := by
    rcases spans with _ | ⟨te, rest⟩
    · exact absurd rfl hne
    · rw [extractLine_cons]
      have := gapSub_length_pos te
      simp only [List.length_append]
      omega
  obtain ⟨p, hp, hid⟩ := alignment2path_idA (extractLine spans).length θ hI hθ0 hθ1
  exact ⟨p, hp, hid, update_sequence_id spans hne hinv p hid⟩

theorem C3_identity_pipeline_witness :
    ∃ p, alignment2path idA (extractLine [⟨['a'], some 1, 0⟩]).length
        (extractLine [⟨['a'], some 1, 0⟩]).length (1 / 2) = some p ∧
      (∀ x ≤ (extractLine [⟨['a'], some 1, 0⟩]).length, p x = some x) ∧
      update_sequence (extractLine [⟨['a'], some 1, 0⟩]) (extractLine [⟨['a'], some 1, 0⟩])
        (extractConf [⟨['a'], some 1, 0⟩]) p (offsetsFrom 0 [⟨['a'], some 1, 0⟩]) =
        some [⟨['a'], some 1, 0⟩] :=
  C3_identity_pipeline (1 / 2) (by norm_num) (by norm_num) [⟨['a'], some 1, 0⟩]
    (by simp)
    (by intro te hte
        rw [List.mem_singleton] at hte
        subst hte
        exact ⟨by decide, fun _ _ => ⟨rfl, rfl⟩, by decide, 1, rfl, by norm_num⟩)

/-- C3 counterexample: even with output identical to the input and an
identity path, a span's confidence is overwritten with the mean of the
model's output probability slice, so it changes whenever those
probabilities differ from the stored confidence (here `1/2` versus `1`). -/
theorem C3_confidence_overwritten_cex :
    update_sequence ['a'] ['a'] [(1 : ℚ) / 2] (fun i => if i ≤ 1 then some i else none)
      [(0, ⟨['a'], some 1, 0⟩)] = some [⟨['a'], some ((1 : ℚ) / 2), 0⟩] ∧
    ((1 : ℚ) / 2) ≠ 1 := by
  constructor
  · have h1 : update_sequence ['a'] ['a'] [(1 : ℚ) / 2]
        (fun i => if i ≤ 1 then some i else none) [(0, ⟨['a'], some 1, 0⟩)] =
        some [⟨['a'], some (npMeanDefault (pySlice [(1 : ℚ) / 2] 0 1)), 0⟩] := rfl
    rw [h1]
    have h2 : npMeanDefault (pySlice [(1 : ℚ) / 2] 0 1) = (1 : ℚ) / 2 := by
      norm_num [npMeanDefault, pySlice]
    rw [h2]
  · norm_num

theorem extractLine_append (a b : List TextEquivType) :
    extractLine (a ++ b) = extractLine a ++ extractLine b := by
  simp [extractLine]

theorem extractConf_append (a b : List TextEquivType) :
    extractConf (a ++ b) = extractConf a ++ extractConf b := by
  simp [extractConf]

theorem offsetsFrom_get (seq : List TextEquivType) :
    ∀ (k i : Nat) (hk : k < seq.length),
    (offsetsFrom i seq).get? k =
      some (i + (extractLine (seq.take k)).length, gapSub (seq.get ⟨k, hk⟩)) := by
  induction seq with
  | nil => intro k i hk; simp at hk
  | cons te rest ih =>
    intro k i hk
    cases k with
    | zero =>
      rw [offsetsFrom_cons]
      simp [extractLine]
    | succ k =>
      rw [offsetsFrom_cons]
      have hk' : k < rest.length := by simpa using hk
      rw [show ((i, gapSub te) :: offsetsFrom (i + (gapSub te).Unicode.length) rest).get? (k + 1)
        = (offsetsFrom (i + (gapSub te).Unicode.length) rest).get? k from rfl]
      rw [ih k (i + (gapSub te).Unicode.length) hk']
      rw [show (te :: rest).take (k + 1) = te :: rest.take k from rfl]
      rw [extractLine_cons]
      simp only [List.length_append, List.get_cons_succ]
      rw [Nat.add_assoc]

theorem seq_decompose (seq : List TextEquivType) (k : Nat) (hk : k < seq.length) :
    seq = seq.take k ++ [seq.get ⟨k, hk⟩] ++ seq.drop (k + 1) := by
  conv_lhs => rw [← List.take_append_drop k seq]
  rw [List.append_assoc]
  congr 1
  rw [List.drop_eq_getElem_cons hk]
  simp

theorem pySlice_mid {α : Type} (pre l suf : List α) :
    pySlice (pre ++ (l ++ suf)) pre.length (pre.length + l.length) = l := by
  unfold pySlice
  rw [List.drop_left, Nat.add_sub_cancel_left, List.take_left]

theorem extractConf_length (seq : List TextEquivType) :
    (extractConf seq).length = (extractLine seq).length := by
  induction seq with
  | nil => rfl
  | cons te rest ih =>
    rw [extractConf_cons, extractLine_cons]
    simp [ih]

theorem offsetsFrom_length (seq : List TextEquivType) :
    ∀ i, (offsetsFrom i seq).length = seq.length := by
  induction seq with
  | nil => intro i; rfl
  | cons te rest ih =>
    intro i
    rw [offsetsFrom_cons]
    simp [ih]

/-- C7 (amended): during line extraction, every span with empty content has
its content replaced by the single reserved placeholder `GAP`, contributing
exactly one character to the line string together with one copy of its
effective confidence (`1.0` when the stored confidence is unset or zero —
not always the span's own stored confidence, see the counterexample); and
when the placeholder belongs to the model's vocabulary mapping, extraction
of a line containing an empty span aborts with the fatal configuration
assert instead of substituting. -/
theorem C7_gap_substitution (mapping : List Char) (seq : List TextEquivType) :
    ((∃ te ∈ seq, te.Unicode = []) → GAP ∈ mapping →
      line_sequence2strings mapping seq = none) ∧
    (∀ ls, line_sequence2strings mapping seq = some ls →
      ∀ (k : Nat) (hk : k < seq.length), (seq.get ⟨k, hk⟩).Unicode = [] →
        ∃ off, ls.starts.get? k =
            some (off, { seq.get ⟨k, hk⟩ with Unicode := [GAP] }) ∧
          pySlice ls.line off (off + 1) = [GAP] ∧
          pySlice ls.conf off (off + 1) = [effConf (seq.get ⟨k, hk⟩).conf] ∧
          ∀ q, ls.starts.get? (k + 1) = some q → q.1 = off + 1) := by
  constructor
  · intro hempty hmem
    exact line_sequence2strings_fails mapping seq hmem hempty
  · intro ls hls k hk hempty
    rw [line_sequence2strings_success_shape mapping seq ls hls]
    dsimp only
    have h1 : extractLine [seq.get ⟨k, hk⟩] = [GAP] := by
      rw [extractLine_cons]
      unfold gapSub
      rw [if_pos hempty]
      rfl
    have hc1 : extractConf [seq.get ⟨k, hk⟩] = [effConf (seq.get ⟨k, hk⟩).conf] := by
      rw [extractConf_cons]
      unfold gapSub
      rw [if_pos hempty]
      rfl
    refine ⟨(extractLine (seq.take k)).length, ?_, ?_, ?_, ?_⟩
    · rw [offsetsFrom_get seq k 0 hk]
      unfold gapSub
      rw [if_pos hempty]
      simp
    · have hline : extractLine seq =
          extractLine (seq.take k) ++ ([GAP] ++ extractLine (seq.drop (k + 1))) := by
        conv_lhs => rw [seq_decompose seq k hk]
        rw [extractLine_append, extractLine_append, h1, List.append_assoc]
      rw [hline]
      have := pySlice_mid (extractLine (seq.take k)) [GAP] (extractLine (seq.drop (k + 1)))
      simpa using this
    · have hconf : extractConf seq =
          extractConf (seq.take k) ++ ([effConf (seq.get ⟨k, hk⟩).conf] ++
            extractConf (seq.drop (k + 1))) := by
        conv_lhs => rw [seq_decompose seq k hk]
        rw [extractConf_append, extractConf_append, hc1, List.append_assoc]
      rw [hconf]
      have h3 := pySlice_mid (extractConf (seq.take k))
        [effConf (seq.get ⟨k, hk⟩).conf] (extractConf (seq.drop (k + 1)))
      rw [extractConf_length] at h3
      simpa using h3
    · intro q hq
      rcases Nat.lt_or_ge (k + 1) seq.length with hk1 | hk1
      · have htak : (extractLine (seq.take (k + 1))).length
            = (extractLine (seq.take k)).length + 1 := by
          have hdec : seq.take (k + 1) = seq.take k ++ [seq.get ⟨k, hk⟩] := by
            rw [List.take_succ]
            congr 1
            rw [← List.get?_eq_getElem?, List.get?_eq_get hk]
            rfl
          rw [hdec, extractLine_append, h1]
          simp
        rw [offsetsFrom_get seq (k + 1) 0 hk1] at hq
        rw [← Option.some_inj.mp hq]
        dsimp only
        omega
      · exfalso
        rw [List.get?_eq_none.mpr (by rw [offsetsFrom_length]; omega)] at hq
        cases hq

theorem C7_gap_substitution_witness :
    line_sequence2strings [GAP] [⟨[], some 1, 0⟩] = none ∧
    (∃ off,
      (offsetsFrom 0 [(⟨[], some 1, 0⟩ : TextEquivType)]).get? 0 =
          some (off, ⟨[GAP], some 1, 0⟩) ∧
      pySlice (extractLine [(⟨[], some 1, 0⟩ : TextEquivType)]) off (off + 1) = [GAP] ∧
      pySlice (extractConf [(⟨[], some 1, 0⟩ : TextEquivType)]) off (off + 1) =
          [effConf (some 1)] ∧
      ∀ q, (offsetsFrom 0 [(⟨[], some 1, 0⟩ : TextEquivType)]).get? (0 + 1) = some q →
        q.1 = off + 1) := by
  constructor
  · exact (C7_gap_substitution [GAP] [⟨[], some 1, 0⟩]).1
      ⟨⟨[], some 1, 0⟩, List.mem_singleton.mpr rfl, rfl⟩ (List.mem_singleton.mpr rfl)
  · exact (C7_gap_substitution [] [⟨[], some 1, 0⟩]).2
      ⟨extractLine [⟨[], some 1, 0⟩], extractConf [⟨[], some 1, 0⟩],
        offsetsFrom 0 [⟨[], some 1, 0⟩]⟩ rfl 0 (by simp) rfl

/-- C7 counterexample: a span with empty content and stored confidence `0.0`
contributes confidence `1.0` to the line, not its own confidence: Python
evaluates `te.conf or "1.0"`, and `0.0` is falsy. -/
theorem C7_own_confidence_cex :
    line_sequence2strings [] [⟨[], some 0, 5⟩] =
      some ⟨[GAP], [effConf (some 0)], [(0, ⟨[GAP], some 0, 5⟩)]⟩ ∧
    effConf (some 0) = 1 ∧ ¬ ((1 : ℚ) = 0) := by
  refine ⟨rfl, ?_, ?_⟩
  · norm_num [effConf]
  · norm_num

theorem resegmentEntry_noop (sequence : List (TextEquivType × Option WordType))
    (j : Nat) (ws : List WordType)
    (h : ∀ e, sequence.get? j = some e → noReseg e) :
    resegmentEntry sequence j ws = some ws := by
  rcases hj : sequence.get? j with _ | ⟨te, w⟩
  · unfold resegmentEntry
    rw [hj]
  · unfold resegmentEntry
    rw [hj]
    dsimp only
    rcases h _ hj with ⟨hidx, hne⟩ | ⟨hidx, hns⟩
    · rw [if_pos hidx, if_neg hne]
    · rw [if_neg hidx, if_neg hns]

theorem resegmentGo_noops (sequence : List (TextEquivType × Option WordType))
    (is : List Nat) (ws : List WordType)
    (h : ∀ j ∈ is, ∀ e, sequence.get? j = some e → noReseg e) :
    resegmentGo sequence is ws = some ws := by
  induction is with
  | nil => rfl
  | cons i rest ih =>
    unfold resegmentGo
    rw [resegmentEntry_noop sequence i ws (h i (List.mem_cons_self i rest))]
    exact ih (fun j hj => h j (List.mem_cons_of_mem i hj))

theorem resegmentGo_append (sequence : List (TextEquivType × Option WordType))
    (as bs : List Nat) (ws : List WordType) :
    resegmentGo sequence (as ++ bs) ws =
      match resegmentGo sequence as ws with
      | none => none
      | some ws2 => resegmentGo sequence bs ws2 := by
  induction as generalizing ws with
  | nil => rfl
  | cons a rest ih =>
    rw [List.cons_append]
    rw [show resegmentGo sequence (a :: (rest ++ bs)) ws =
        (match resegmentEntry sequence a ws with
         | none => none
         | some ws2 => resegmentGo sequence (rest ++ bs) ws2) from rfl]
    rw [show resegmentGo sequence (a :: rest) ws =
        (match resegmentEntry sequence a ws with
         | none => none
         | some ws2 => resegmentGo sequence rest ws2) from rfl]
    rcases resegmentEntry sequence a ws with _ | ws3
    · rfl
    · dsimp only
      exact ih ws3

theorem resegmentEntry_merge (sequence : List (TextEquivType × Option WordType))
    (i : Nat) (te te₁ te₂ : TextEquivType) (w₀ : Option WordType)
    ( prev_ next_ : WordType) (words : List WordType)
    (hi : sequence.get? i = some (te, w₀))
    (hsyn : te.index = -1) (hempty : te.Unicode = [])
    (h0 : i ≠ 0) (hlast : i ≠ sequence.length - 1)
    (hprev : sequence.get? (i - 1) = some (te₁, some prev_))
    (hnext : sequence.get? (i + 1) = some (te₂, some next_)) :
    resegmentEntry sequence i words =
      some ((words.filter (fun w => ¬ w = next_)).map
        (fun w => if w = prev_ then merge_words prev_ next_ else w)) := by
  unfold resegmentEntry
  rw [hi]
  dsimp only
  rw [if_pos hsyn, if_pos hempty, if_neg (not_or.mpr ⟨h0, hlast⟩), hprev, hnext]

/-- C8 (amended): when a synthetic whitespace span's content has become
empty at an interior position of the sequence, with an emitted word both
immediately before and immediately after it, and no other entry of the
sequence triggers a merge or split, the Resegmenter replaces those two
words in the line's word list by a single merged word at the position of
the preceding word, removing the following word; the merged word's text
content is the concatenation of the two original first spans' contents,
and its confidence is the product of the two original confidences
provided both are truthy (set and nonzero) — otherwise the preceding
word's confidence is kept unchanged. -/
theorem C8_merge_words (sequence : List (TextEquivType × Option WordType))
    (words : List WordType) (i : Nat) (te te₁ te₂ teP teN : TextEquivType)
    (w₀ : Option WordType) ( prev_ next_ : WordType)
    (restP restN : List TextEquivType)
    (hi : sequence.get? i = some (te, w₀))
    (hsyn : te.index = -1) (hempty : te.Unicode = [])
    (h0 : i ≠ 0) (hlast : i ≠ sequence.length - 1)
    (hprev : sequence.get? (i - 1) = some (te₁, some prev_))
    (hnext : sequence.get? (i + 1) = some (te₂, some next_))
    (hothers : ∀ j e, j ≠ i → sequence.get? j = some e → noReseg e)
    (hP : prev_.TextEquiv = teP :: restP) (hN : next_.TextEquiv = teN :: restN)
    (hcP : confTruthy teP.conf = true) (hcN : confTruthy teN.conf = true) :
    resegment_sequence sequence words =
      some ((words.filter (fun w => ¬ w = next_)).map
        (fun w => if w = prev_ then merge_words prev_ next_ else w)) ∧
    (merge_words prev_ next_).TextEquiv =
      { teP with Unicode := teP.Unicode ++ teN.Unicode,
                 conf := some (teP.conf.getD 1 * teN.conf.getD 1) } :: restP := by
  have hilen : i < sequence.length := (List.get?_eq_some.mp hi).1
  constructor
  · unfold resegment_sequence
    rw [List.range_eq_range' sequence.length]
    have hsplit : List.range' 0 sequence.length =
        List.range' 0 i ++ List.range' i (sequence.length - i) := by
      have := List.range'_append 0 i (sequence.length - i) 1
      simp only [Nat.one_mul, Nat.zero_add] at this
      rw [this]
      congr 1
      omega
    rw [hsplit, resegmentGo_append]
    rw [resegmentGo_noops sequence (List.range' 0 i) words (by
      intro j hj e he
      exact hothers j e (by
        have := List.mem_range'_1.mp hj
        omega) he)]
    dsimp only
    rw [show sequence.length - i = (sequence.length - i - 1) + 1 from by omega]
    rw [List.range'_succ i (sequence.length - i - 1) 1]
    rw [show resegmentGo sequence (i :: List.range' (i + 1) (sequence.length - i - 1) 1) words =
        (match resegmentEntry sequence i words with
         | none => none
         | some ws2 => resegmentGo sequence (List.range' (i + 1) (sequence.length - i - 1) 1) ws2)
        from rfl]
    rw [resegmentEntry_merge sequence i te te₁ te₂ w₀ prev_ next_ words
      hi hsyn hempty h0 hlast hprev hnext]
    dsimp only
    exact resegmentGo_noops sequence _ _ (by
      intro j hj e he
      exact hothers j e (by
        have := List.mem_range'_1.mp hj
        omega) he)
  · simp only [merge_words]
    rw [hP, hN]
    dsimp only
    rw [if_pos (List.cons_ne_nil teP restP)]
    dsimp only
    rw [hcP, hcN]
    rw [if_pos (by rfl)]

theorem C8_merge_words_witness :
    resegment_sequence
      [(⟨['a'], some 2, 0⟩, some exW1), (⟨[], some 1, -1⟩, none),
       (⟨['b'], some 3, 1⟩, some exW2)] [exW1, exW2] =
      some (([exW1, exW2].filter (fun w => ¬ w = exW2)).map
        (fun w => if w = exW1 then merge_words exW1 exW2 else w)) ∧
    (merge_words exW1 exW2).TextEquiv = [⟨['a', 'b'], some ((2 : ℚ) * 3), 0⟩] := by
  exact C8_merge_words
    [(⟨['a'], some 2, 0⟩, some exW1), (⟨[], some 1, -1⟩, none),
     (⟨['b'], some 3, 1⟩, some exW2)] [exW1, exW2] 1
    ⟨[], some 1, -1⟩ ⟨['a'], some 2, 0⟩ ⟨['b'], some 3, 1⟩
    ⟨['a'], some 2, 0⟩ ⟨['b'], some 3, 1⟩ none exW1 exW2 [] []
    rfl rfl rfl (by decide) (by decide) rfl rfl
    (by
      intro j e hj he
      rcases j with _ | _ | _ | j
      · simp only [List.get?] at he
        cases he
        exact Or.inr ⟨by decide, by decide⟩
      · exact absurd rfl hj
      · simp only [List.get?] at he
        cases he
        exact Or.inr ⟨by decide, by decide⟩
      · simp only [List.get?] at he
        cases he)
    rfl rfl (by decide) (by decide)

/-- C8 counterexample: with the preceding word's confidence `2` and the
following word's confidence `0`, the merged word keeps confidence `2`
rather than the product `2 * 0`: Python guards the multiplication with
`if textequiv.conf and textequiv2.conf`, and `0.0` is falsy. -/
theorem C8_product_confidence_cex :
    resegment_sequence
      [(⟨['a'], some 2, 0⟩, some exW1), (⟨[], some 1, -1⟩, none),
       (⟨['b'], some 0, 1⟩, some exW2z)] [exW1, exW2z] =
      some [merge_words exW1 exW2z] ∧
    (merge_words exW1 exW2z).TextEquiv.map (fun t => t.conf) = [some 2] ∧
    (merge_words exW1 exW2z).TextEquiv.map (fun t => t.Unicode) = [['a', 'b']] ∧
    ¬ ((2 : ℚ) * 0 = 2) := by
  refine ⟨rfl, rfl, rfl, by norm_num⟩

/-- C10: for a word whose first text span contains a space, with `pos` the
index of the first space, `_split_word_at_space` returns two words whose
contents are the characters strictly before and strictly after the space
(the space itself in neither), both carrying the original span's
confidence unchanged, with widths `w * pos/len` and `w * (1 - pos/len)`. -/
theorem C10_split_word_at_space (word : WordType) (te : TextEquivType)
    (rest : List TextEquivType) (pos : Nat)
    (hte : word.TextEquiv = te :: rest)
    (hpos : te.Unicode.findIdx? (fun c => c = ' ') = some pos) :
    ∃ p n, split_word_at_space word = some (p, n) ∧
      p.TextEquiv = [⟨te.Unicode.take pos, te.conf, noIndex⟩] ∧
      n.TextEquiv = [⟨te.Unicode.drop (pos + 1), te.conf, noIndex⟩] ∧
      p.coords.w = word.coords.w * ((pos : ℚ) / (te.Unicode.length : ℚ)) ∧
      n.coords.w = word.coords.w * (1 - (pos : ℚ) / (te.Unicode.length : ℚ)) := by
  unfold split_word_at_space
  rw [hte]
  dsimp only
  rw [hpos]
  exact ⟨_, _, rfl, rfl, rfl, rfl, rfl⟩

theorem C10_split_word_at_space_witness :
    ∃ p n, split_word_at_space exWS = some (p, n) ∧
      p.TextEquiv = [⟨(['a', ' ', 'b'] : List Char).take 1, some 2, noIndex⟩] ∧
      n.TextEquiv = [⟨(['a', ' ', 'b'] : List Char).drop 2, some 2, noIndex⟩] ∧
      p.coords.w = exWS.coords.w * (((1 : Nat) : ℚ) / (((['a', ' ', 'b'] : List Char).length : Nat) : ℚ)) ∧
      n.coords.w = exWS.coords.w * (1 - ((1 : Nat) : ℚ) / ((['a', ' ', 'b'] : List Char).length : ℚ)) :=
  C10_split_word_at_space exWS ⟨['a', ' ', 'b'], some 2, 0⟩ [] 1 rfl rfl

theorem npMeanPy_map_some (l : List ℚ) (h : l ≠ []) :
    npMeanPy (l.map some) = some (l.sum / l.length) := by
  unfold npMeanPy
  rw [if_neg (by simpa using h), if_neg (by simp)]
  simp only [List.map_map, List.length_map, Function.comp_def, Option.getD_some,
    List.map_id']

theorem npMeanPy_singleton (x : ℚ) : npMeanPy [some x] = some x := by
  unfold npMeanPy
  simp

theorem map_word_update (lWords : List WordType) (gcss : List (List ℚ))
    (hg : lWords.map (fun w => w.Glyph.map (fun g => firstConfOr1 g.TextEquiv)) =
      gcss.map (List.map some))
    (hne : ∀ gcs ∈ gcss, gcs ≠ []) :
    (lWords.map (fun word : WordType =>
      { word with TextEquiv :=
          [⟨(word.Glyph.map (fun glyph : GlyphType => firstUnicode glyph.TextEquiv)).flatten,
            npMeanPy (word.Glyph.map (fun glyph : GlyphType => firstConfOr1 glyph.TextEquiv)),
            noIndex⟩] })).map (fun w => w.TextEquiv) =
      (lWords.zip gcss).map (fun p =>
        [(⟨(p.1.Glyph.map (fun g => firstUnicode g.TextEquiv)).flatten,
          some (p.2.sum / (p.2.length : ℚ)), noIndex⟩ : TextEquivType)]) := by
  induction lWords generalizing gcss with
  | nil =>
    cases gcss with
    | nil => rfl
    | cons c cs => simp at hg
  | cons w ws ih =>
    cases gcss with
    | nil => simp at hg
    | cons c cs =>
      simp only [List.map_cons, List.cons.injEq] at hg
      obtain ⟨h1, h2⟩ := hg
      simp only [List.map_cons, List.zip_cons_cons]
      congr 1
      · dsimp only
        rw [h1, npMeanPy_map_some c (hne c (List.mem_cons_self c cs))]
      · exact ih cs h2 (fun d hd => hne d (List.mem_cons_of_mem c hd))

/-- C9 (amended): for every hierarchy level strictly above the processing
level, `page_update_higher_textequiv_levels` replaces that level's spans
with freshly computed ones: every word's content becomes the concatenation
of its glyphs' first contents (empty string for a glyph with no text
result), a line's content becomes its words' first contents joined by a
single space, and a region's content becomes its lines' first contents
joined by a newline; the confidence at each level is the arithmetic mean
of the immediate children's contributed confidences, where a child *with
no text result* contributes 1.0 — a level whose child list is empty gets
numpy's NaN (unset confidence), not 1.0.  The three conjuncts establish
the word, line and region clauses, each for arbitrarily many children. -/
theorem C9_propagation :
    (∀ (region : TextRegionType) (line : TextLineType) (gcss : List (List ℚ)),
      region.TextLine = [line] →
      line.Word.map (fun w => w.Glyph.map (fun g => firstConfOr1 g.TextEquiv)) =
        gcss.map (List.map some) →
      (∀ gcs ∈ gcss, gcs ≠ []) →
      ∃ region2 line2,
        page_update_higher_textequiv_levels Level.glyph [region] = [region2] ∧
        region2.TextLine = [line2] ∧
        line2.Word.map (fun w => w.TextEquiv) =
          (line.Word.zip gcss).map (fun p =>
            [(⟨(p.1.Glyph.map (fun g => firstUnicode g.TextEquiv)).flatten,
              some (p.2.sum / (p.2.length : ℚ)), noIndex⟩ : TextEquivType)])) ∧
    (∀ (region : TextRegionType) (line : TextLineType) (cs : List ℚ),
      region.TextLine = [line] →
      line.Word.map (fun w => firstConfOr1 w.TextEquiv) = cs.map some → cs ≠ [] →
      ∃ region2 line2,
        page_update_higher_textequiv_levels Level.word [region] = [region2] ∧
        region2.TextLine = [line2] ∧
        line2.Word = line.Word ∧
        line2.TextEquiv =
          [⟨List.intercalate [' '] (line.Word.map (fun w => firstUnicode w.TextEquiv)),
            some (cs.sum / cs.length), noIndex⟩]) ∧
    (∀ (region : TextRegionType) (lcs : List ℚ),
      region.TextLine.map (fun l => firstConfOr1 l.TextEquiv) = lcs.map some →
      lcs ≠ [] →
      ∃ region2,
        page_update_higher_textequiv_levels Level.line [region] = [region2] ∧
        region2.TextLine = region.TextLine ∧
        region2.TextEquiv =
          [⟨List.intercalate ['\n'] (region.TextLine.map (fun l => firstUnicode l.TextEquiv)),
            some (lcs.sum / lcs.length), noIndex⟩]) := by
  refine ⟨?_, ?_, ?_⟩
  · intro region line gcss hline hg hne
    obtain ⟨rTE, rLines⟩ := region
    obtain ⟨lTE, lWords⟩ := line
    dsimp only at hline hg
    subst hline
    refine ⟨_, _, rfl, rfl, ?_⟩
    dsimp only
    rw [if_pos (show Level.glyph ≠ Level.word from by decide)]
    exact map_word_update lWords gcss hg hne
  · intro region line cs hline hcs hne
    obtain ⟨rTE, rLines⟩ := region
    obtain ⟨lTE, lWords⟩ := line
    dsimp only at hline hcs
    subst hline
    refine ⟨_, _, rfl, rfl, rfl, ?_⟩
    dsimp only
    rw [if_neg (show ¬ (Level.word ≠ Level.word) from by decide)]
    rw [hcs, npMeanPy_map_some cs hne]
  · intro region lcs hlcs hne
    obtain ⟨rTE, rLines⟩ := region
    dsimp only at hlcs
    refine ⟨_, rfl, ?_, ?_⟩
    · rfl
    · dsimp only
      rw [if_neg (show ¬ (Level.line ≠ Level.line) from by decide)]
      rw [hlcs, npMeanPy_map_some lcs hne]

theorem C9_propagation_witness :
    (∃ region2 line2,
        page_update_higher_textequiv_levels Level.glyph [exRegionG] = [region2] ∧
        region2.TextLine = [line2] ∧
        line2.Word.map (fun w => w.TextEquiv) =
          (exLineG.Word.zip ([[9/10, 4/5], [1/2]] : List (List ℚ))).map (fun p =>
            [(⟨(p.1.Glyph.map (fun g => firstUnicode g.TextEquiv)).flatten,
              some (p.2.sum / (p.2.length : ℚ)), noIndex⟩ : TextEquivType)])) ∧
    (∃ region2 line2,
        page_update_higher_textequiv_levels Level.word [exRegionW] = [region2] ∧
        region2.TextLine = [line2] ∧
        line2.Word = (⟨[], [exWThe, exWCat]⟩ : TextLineType).Word ∧
        line2.TextEquiv =
          [⟨List.intercalate [' ']
              ((⟨[], [exWThe, exWCat]⟩ : TextLineType).Word.map
                (fun w => firstUnicode w.TextEquiv)),
            some (([9/10, 4/5] : List ℚ).sum / (([9/10, 4/5] : List ℚ).length : ℚ)),
            noIndex⟩]) ∧
    (∃ region2,
        page_update_higher_textequiv_levels Level.line [exRegionL] = [region2] ∧
        region2.TextLine = exRegionL.TextLine ∧
        region2.TextEquiv =
          [⟨List.intercalate ['\n']
              (exRegionL.TextLine.map (fun l => firstUnicode l.TextEquiv)),
            some (([9/10, 7/10] : List ℚ).sum / (([9/10, 7/10] : List ℚ).length : ℚ)),
            noIndex⟩]) ∧
    List.intercalate [' ']
        ((⟨[], [exWThe, exWCat]⟩ : TextLineType).Word.map
          (fun w => firstUnicode w.TextEquiv)) =
      ['t', 'h', 'e', ' ', 'c', 'a', 't'] ∧
    ([9/10, 4/5] : List ℚ).sum / (([9/10, 4/5] : List ℚ).length : ℚ) = 17/20 ∧
    List.intercalate ['\n'] (exRegionL.TextLine.map (fun l => firstUnicode l.TextEquiv)) =
      ['a', 'b', '\n', 'c', 'd'] ∧
    ([9/10, 7/10] : List ℚ).sum / (([9/10, 7/10] : List ℚ).length : ℚ) = 4/5 := by
  refine ⟨?_, ?_, ?_, rfl, ?_, rfl, ?_⟩
  · exact C9_propagation.1 exRegionG exLineG [[9/10, 4/5], [1/2]] rfl rfl (by decide)
  · exact C9_propagation.2.1 exRegionW ⟨[], [exWThe, exWCat]⟩ [9/10, 4/5] rfl rfl
      (by decide)
  · exact C9_propagation.2.2 exRegionL [9/10, 7/10] rfl (by decide)
  · norm_num [List.sum_cons, List.sum_nil]
  · norm_num [List.sum_cons, List.sum_nil]

/-- C9 counterexample: a line with no words at all gets `np.mean([])`, which
is numpy NaN (modelled `none`), not the claimed default confidence `1.0`. -/
theorem C9_empty_children_cex :
    (page_update_higher_textequiv_levels Level.word [⟨[], [⟨[], []⟩]⟩]).map
        (fun r => r.TextLine.map (fun l => l.TextEquiv.map (fun t => t.conf)))
      = [[[none]]] ∧ (none : Option ℚ) ≠ some 1 := by
  refine ⟨rfl, by simp⟩

end Transcode
